import Mathlib

/-
Verification of the rebayes low-rank filter core (lofi_core.py,
orfit_inference.py, replay_lofi.py) against its specification.

Modelling conventions:
 - jax arrays are embedded as lists of real numbers: a vector is `List ℝ`
   (type `Vec`) and a matrix is a list of rows, `List (List ℝ)` (type `Mat`).
 - External numerical-library routines (jnp.linalg.svd, cholesky, lstsq,
   pinv, inv, and the autodiff jacobian jacrev) are not part of the
   repository; each is passed in as an explicit function parameter, exactly
   where the source calls into jax.
 - Emission mean / covariance functions are caller-supplied in the source
   and are likewise parameters.
 - Python floats are modelled as exact reals.
-/

noncomputable section

open scoped Classical

abbrev Vec := List ℝ

abbrev Mat := List (List ℝ)

/-- Dot product of two vectors (entrywise product, then sum). -/
def dotV (v w : Vec) : ℝ := (List.zipWith (fun a b => a * b) v w).sum

/-- Entrywise vector addition. -/
def addV (v w : Vec) : Vec := List.zipWith (fun a b => a + b) v w

/-- Entrywise vector subtraction. -/
def subV (v w : Vec) : Vec := List.zipWith (fun a b => a - b) v w

/-- Scalar times vector. -/
def smulV (c : ℝ) (v : Vec) : Vec := v.map (fun t => c * t)

/-- Vector divided by a scalar. -/
def divsV (v : Vec) (c : ℝ) : Vec := v.map (fun t => t / c)

/-- Number of columns of a matrix (length of its first row). -/
def numCols (M : Mat) : ℕ := (M.headD []).length

/-- Matrix transpose (for rectangular matrices this is numpy transpose). -/
def transposeM (M : Mat) : Mat :=
  (List.range (numCols M)).map (fun j => M.map (fun row => row.getD j 0))

/-- Matrix product. -/
def matMul (A B : Mat) : Mat :=
  A.map (fun row => (transposeM B).map (fun col => dotV row col))

/-- Matrix-vector product. -/
def matVecM (M : Mat) (v : Vec) : Vec := M.map (fun row => dotV row v)

/-- Entrywise matrix addition. -/
def addM (A B : Mat) : Mat := List.zipWith addV A B

/-- Entrywise matrix subtraction. -/
def subM (A B : Mat) : Mat := List.zipWith subV A B

/-- Scalar times matrix. -/
def smulM (c : ℝ) (A : Mat) : Mat := A.map (smulV c)

/-- Matrix divided by a scalar. -/
def divsM (A : Mat) (c : ℝ) : Mat := A.map (fun row => row.map (fun t => t / c))

/-- Entrywise negation of a matrix. -/
def negM (A : Mat) : Mat := A.map (fun row => row.map (fun t => -t))

/-- Broadcast product `s * A` of a length-r vector with a d-by-r matrix:
column j is scaled by `s j` (numpy row-broadcasting). -/
def colScale (s : Vec) (A : Mat) : Mat :=
  A.map (fun row => List.zipWith (fun c t => c * t) s row)

/-- Broadcast product `c[:, None] * A`: row i is scaled by `c i`. -/
def rowScale (c : Vec) (A : Mat) : Mat :=
  List.zipWith (fun ci row => row.map (fun t => ci * t)) c A

/-- Broadcast quotient `A / c[:, None]`: row i is divided by `c i`. -/
def rowDiv (c : Vec) (A : Mat) : Mat :=
  List.zipWith (fun ci row => row.map (fun t => t / ci)) c A

/-- Horizontal concatenation of two matrices (jnp.hstack). -/
def hstack (A B : Mat) : Mat := List.zipWith (fun r s => r ++ s) A B

/-- Vertical concatenation of two matrices. -/
def vstack (A B : Mat) : Mat := A ++ B

/-- Identity matrix (jnp.eye). -/
def eyeM (n : ℕ) : Mat :=
  (List.range n).map (fun i => (List.range n).map (fun j => if i = j then (1:ℝ) else 0))

/-- All-zero matrix. -/
def zerosM (n m : ℕ) : Mat := (List.range n).map (fun _ => List.replicate m (0:ℝ))

/-- Diagonal matrix built from a vector (jnp.diag of a vector). -/
def diagM (v : Vec) : Mat :=
  (List.range v.length).map (fun i =>
    (List.range v.length).map (fun j => if i = j then v.getD i 0 else 0))

/-- Diagonal of a matrix (jnp.diag of a matrix). -/
def diagOf (M : Mat) : Vec :=
  (List.range M.length).map (fun i => (M.getD i []).getD i 0)

/-- First r columns of a matrix (numpy `M[:, :r]`). -/
def takeCols (r : ℕ) (M : Mat) : Mat := M.map (List.take r)

/-- Columns from r on (numpy `M[:, r:]`). -/
def dropCols (r : ℕ) (M : Mat) : Mat := M.map (List.drop r)

/-- Column j of a matrix (numpy `M[:, j]`). -/
def getCol (M : Mat) (j : ℕ) : Vec := M.map (fun row => row.getD j 0)

/-- Replace column j of a matrix (jnp `M.at[:, j].set(u)`). -/
def setCol (M : Mat) (j : ℕ) (u : Vec) : Mat :=
  List.zipWith (fun row ui => row.set j ui) M u

/-- Squared euclidean norm. -/
def normSq (v : Vec) : ℝ := dotV v v

/-- Squared norms of the rows of a matrix (einsum ij,ij->i). -/
def rowNormSq (M : Mat) : Vec := M.map normSq

/-- Minimum entry of a vector (jnp.min on a nonempty array). -/
def vmin (v : Vec) : ℝ := v.foldl min (v.headD 0)

/-- First index attaining the minimum (jnp.argmin). -/
def argminV (v : Vec) : ℕ := List.findIdx (fun t => decide (t = vmin v)) v

/-- Embedding of the source helper
`_normalize = lambda v: jnp.where(v.any(), v / jnp.linalg.norm(v), jnp.zeros(shape=v.shape))`. -/
def normalizeV (v : Vec) : Vec :=
  if ∃ t ∈ v, t ≠ 0 then divsV v (Real.sqrt (normSq v)) else v.map (fun _ => 0)

/-- Embedding of lofi_core._lofi_estimate_noise.  `y_cond_mean` is the
caller-supplied emission mean function.  jnp.atleast_1d is the identity in
this model (emissions are vectors). -/
def lofi_estimate_noise (m : Vec) (y_cond_mean : Vec → Vec → Vec) (x y : Vec)
    (nobs : ℕ) (obs_noise_var : ℝ) (adaptive_variance : Bool) : ℕ × ℝ :=
  if adaptive_variance = false then (0, 0)
  else
    let m_Y := fun w => y_cond_mean w x
    let yhat := m_Y m
    let sqerr := dotV (subV yhat y) (subV yhat y) / (yhat.length : ℝ)
    let nobs_est := nobs + 1
    let obs_noise_var_est :=
      max (1e-6 : ℝ) (obs_noise_var + (1/(nobs_est : ℝ)) * (sqerr - obs_noise_var))
    (nobs_est, obs_noise_var_est)

/-- Inflation policy, a configuration constant ('bayesian' / 'simple' /
'hybrid' strings in the source). -/
inductive Inflation
  | bayesian
  | simple
  | hybrid

/-- Embedding of lofi_core._lofi_spherical_cov_inflate.
`pinv` is jnp.linalg.pinv (external).  Returns
(m_infl, U_infl, Lambda_infl, eta_infl). -/
def lofi_spherical_cov_inflate (pinv : Mat → Mat) (m0 m : Vec) (U : Mat)
    (Lambda : Vec) (eta alpha : ℝ) (inflation : Inflation) :
    Vec × Mat × Vec × ℝ :=
  let Lambda_infl := Lambda.map (fun t => t / Real.sqrt (1 + alpha))
  let U_infl := U
  let W_infl := colScale Lambda_infl U_infl
  match inflation with
  | .bayesian =>
      let eta_infl := eta
      let G := pinv (addM (eyeM (numCols W_infl))
        (matMul (transposeM W_infl) (divsM W_infl eta_infl)))
      let e := subV m0 m
      let K := subV e
        (matVecM (matMul (divsM W_infl eta_infl) G) (matVecM (transposeM W_infl) e))
      let m_infl := addV m (smulV (alpha/(1+alpha)) K)
      (m_infl, U_infl, Lambda_infl, eta_infl)
  | .simple =>
      let eta_infl := eta/(1+alpha)
      (m, U_infl, Lambda_infl, eta_infl)
  | .hybrid =>
      let eta_infl := eta
      (m, U_infl, Lambda_infl, eta_infl)

/-- Embedding of lofi_core._lofi_spherical_cov_predict.  Returns
(m0_pred, m_pred, U_pred, Lambda_pred, eta_pred). -/
def lofi_spherical_cov_predict (m0 m : Vec) (U : Mat) (Lambda : Vec)
    (gamma q eta : ℝ) (steady_state : Bool) :
    Vec × Vec × Mat × Vec × ℝ :=
  let m0_pred := smulV gamma m0
  let m_pred := smulV gamma m
  let U_pred := U
  if steady_state then
    let eta_pred := eta
    let Lambda_pred := Lambda.map (fun l =>
      Real.sqrt ((gamma^2 * l^2) / (1 + q * l^2)))
    (m0_pred, m_pred, U_pred, Lambda_pred, eta_pred)
  else
    let eta_pred := eta/(gamma^2 + q*eta)
    let Lambda_pred := Lambda.map (fun l =>
      Real.sqrt ((gamma^2 * l^2) /
        ((gamma^2 + q*eta) * (gamma^2 + q*eta + q * l^2))))
    (m0_pred, m_pred, U_pred, Lambda_pred, eta_pred)

/-- Embedding of lofi_core._lofi_spherical_cov_condition_on.
External parameters: `jacrev2d` (autodiff jacobian, jnp.atleast_2d applied),
`cholesky` (jnp.linalg.cholesky), `lstsqSolve` (jnp.linalg.lstsq solution),
`svd` (jnp.linalg.svd with full_matrices=False, returning (u, s, vT)).
The matrix reshape of `H.T @ A` is the identity here (shapes line up).
Returns (m_cond, U_cond, Sigma_cond, eta).  `sv_threshold` is accepted and
ignored, as in the source. -/
def lofi_spherical_cov_condition_on (jacrev2d : (Vec → Vec) → Vec → Mat)
    (cholesky : Mat → Mat) (lstsqSolve : Mat → Mat → Mat)
    (svd : Mat → Mat × Vec × Mat)
    (m : Vec) (U : Mat) (Sigma : Vec) (eta : ℝ)
    (y_cond_mean : Vec → Vec → Vec) (y_cond_cov : Vec → Vec → Mat)
    (x y : Vec) (sv_threshold : ℝ) (adaptive_variance : Bool)
    (obs_noise_var : ℝ) : Vec × Mat × Vec × ℝ :=
  let m_Y := fun w => y_cond_mean w x
  let Cov_Y := fun w => y_cond_cov w x
  let yhat := m_Y m
  let R := if adaptive_variance then smulM obs_noise_var (eyeM yhat.length)
           else Cov_Y m
  let L := cholesky R
  let A := transposeM (lstsqSolve L (eyeM L.length))
  let H := jacrev2d m_Y m
  let W_tilde := hstack (colScale Sigma U) (matMul (transposeM H) A)
  let usv := svd W_tilde
  let u := usv.1
  let lamb := usv.2.1
  let D := lamb.map (fun l => l^2 / (eta^2 + eta * l^2))
  let K := subM
    (divsM (matMul (matMul (transposeM H) A) (transposeM A)) eta)
    (matMul (colScale D u)
      (matMul (transposeM u) (matMul (matMul (transposeM H) A) (transposeM A))))
  let U_cond := takeCols (numCols U) u
  let Sigma_cond := lamb.take (numCols U)
  let m_cond := addV m (matVecM K (subV y yhat))
  (m_cond, U_cond, Sigma_cond, eta)

/-- Embedding of lofi_core._lofi_diagonal_cov_inflate.  `Ups` is the (d, 1)
per-coordinate column, modelled as a vector.  Returns
(m_pred, U_pred, Sigma_pred, Ups_pred, eta_pred). -/
def lofi_diagonal_cov_inflate (pinv : Mat → Mat) (svd : Mat → Mat × Vec × Mat)
    (m0 m : Vec) (U : Mat) (Sigma : Vec) (gamma q eta : ℝ) (Ups : Vec)
    (alpha : ℝ) (inflation : Inflation) :
    Vec × Mat × Vec × Vec × ℝ :=
  let W := colScale Sigma U
  let eta_pred := eta/(gamma^2 + q*eta)
  match inflation with
  | .bayesian =>
      let W_pred := divsM W (Real.sqrt (1+alpha))
      let Ups_pred := Ups.map (fun t => t/(1+alpha) + alpha*eta/(1+alpha))
      let G := pinv (addM (eyeM (numCols W))
        (matMul (transposeM W_pred) (rowDiv Ups_pred W_pred)))
      let e := subV m0 m
      let K := List.zipWith (fun ui ki => 1/ui * ki) Ups_pred
        (subV e (matVecM (matMul W_pred G)
          (matVecM (transposeM (rowDiv Ups_pred W_pred)) e)))
      let m_pred := addV m (smulV (alpha*eta/(1+alpha)) K)
      let usv := svd W_pred
      (m_pred, usv.1, usv.2.1, Ups_pred, eta_pred)
  | .simple =>
      let W_pred := divsM W (Real.sqrt (1+alpha))
      let Ups_pred := Ups.map (fun t => t/(1+alpha))
      let usv := svd W_pred
      (m, usv.1, usv.2.1, Ups_pred, eta_pred)
  | .hybrid =>
      let W_pred := divsM W (Real.sqrt (1+alpha))
      let Ups_pred := Ups.map (fun t => t/(1+alpha) + alpha*eta/(1+alpha))
      let usv := svd W_pred
      (m, usv.1, usv.2.1, Ups_pred, eta_pred)

/-- Embedding of lofi_core._lofi_diagonal_cov_predict.  The `steady_state`
argument exists in the source signature and is unused there too.  Returns
(m_pred, U_pred, Sigma_pred, Ups_pred). -/
def lofi_diagonal_cov_predict (pinv : Mat → Mat) (cholesky : Mat → Mat)
    (svd : Mat → Mat × Vec × Mat) (m : Vec) (U : Mat) (Sigma : Vec)
    (gamma q : ℝ) (Ups : Vec) (steady_state : Bool) :
    Vec × Mat × Vec × Vec :=
  let W := colScale Sigma U
  let m_pred := smulV gamma m
  let Ups_pred := Ups.map (fun t => 1/(gamma^2/t + q))
  let ratio := List.zipWith (fun up t => up/t) Ups_pred Ups
  let C := pinv (addM (eyeM (numCols W))
    (matMul (smulM q (transposeM W)) (rowScale ratio W)))
  let W_pred := matMul (rowScale (smulV gamma ratio) W) (cholesky C)
  let usv := svd W_pred
  (m_pred, usv.1, usv.2.1, Ups_pred)

/-- Embedding of lofi_core._lofi_diagonal_cov_condition_on.  Returns
(m_cond, U_cond, Sigma_cond, Ups_cond).  `sv_threshold` is accepted and
ignored, as in the source. -/
def lofi_diagonal_cov_condition_on (jacrev2d : (Vec → Vec) → Vec → Mat)
    (cholesky : Mat → Mat) (lstsqSolve : Mat → Mat → Mat)
    (svd : Mat → Mat × Vec × Mat) (pinv : Mat → Mat)
    (m : Vec) (U : Mat) (Sigma : Vec) (Ups : Vec)
    (y_cond_mean : Vec → Vec → Vec) (y_cond_cov : Vec → Vec → Mat)
    (x y : Vec) (sv_threshold : ℝ) (adaptive_variance : Bool)
    (obs_noise_var : ℝ) : Vec × Mat × Vec × Vec :=
  let m_Y := fun w => y_cond_mean w x
  let Cov_Y := fun w => y_cond_cov w x
  let yhat := m_Y m
  let R := if adaptive_variance then smulM obs_noise_var (eyeM yhat.length)
           else Cov_Y m
  let L := cholesky R
  let A := transposeM (lstsqSolve L (eyeM L.length))
  let H := jacrev2d m_Y m
  let W_tilde := hstack (colScale Sigma U) (matMul (transposeM H) A)
  let usv := svd W_tilde
  let u := usv.1
  let lamb := usv.2.1
  let U_cond := takeCols (numCols U) u
  let U_extra := dropCols (numCols U) u
  let Sigma_cond := lamb.take (numCols U)
  let Sigma_extra := lamb.drop (numCols U)
  let W_extra := colScale Sigma_extra U_extra
  let Ups_cond := addV Ups (rowNormSq W_extra)
  let G := pinv (addM (eyeM (numCols W_tilde))
    (matMul (transposeM W_tilde) (rowDiv Ups W_tilde)))
  let K := subM
    (rowDiv Ups (matMul (matMul (transposeM H) A) (transposeM A)))
    (matMul (matMul (rowDiv Ups W_tilde) G)
      (matMul (matMul (transposeM (rowDiv Ups W_tilde))
        (matMul (transposeM H) A)) (transposeM A)))
  let m_cond := addV m (matVecM K (subV y yhat))
  (m_cond, U_cond, Sigma_cond, Ups_cond)

/-- Embedding of lofi_core._invert_2x2_block_matrix.  `matInv` is
jnp.linalg.inv (external), applied to the small lower-right Schur block. -/
def invert_2x2_block_matrix (matInv : Mat → Mat) (M : Mat)
    (lr_block_dim : ℕ) : Mat :=
  let m := M.length
  let n := numCols M
  let A := (M.take (m - lr_block_dim)).map (List.take (n - lr_block_dim))
  let B := (M.take (m - lr_block_dim)).map (List.drop (n - lr_block_dim))
  let D := (M.drop (m - lr_block_dim)).map (List.drop (n - lr_block_dim))
  let a := (diagOf A).map (fun t => 1/t)
  let aBT := colScale a (transposeM B)
  let K_inv := matInv (subM D (matMul aBT B))
  let B_inv := matMul (negM (transposeM aBT)) K_inv
  let A_inv := addM (diagM a) (matMul (matMul (transposeM aBT) K_inv) aBT)
  let C_inv := matMul (negM K_inv) aBT
  let D_inv := K_inv
  vstack (hstack A_inv B_inv) (hstack C_inv D_inv)

/-- Embedding of the basis-update sweep body local to
lofi_core._lofi_orth_condition_on (its inner `_update_basis`): the candidate
matrix `U_tilde = (H.T - U @ (U.T @ H.T)) @ A` is recomputed from the carried
basis at each step, the candidate direction is column i, and the admission
test is `Lambda.min() < u @ v` alone. -/
def lofi_orth_update_basis (H A : Mat) (carry : Mat × Vec) (i : ℕ) :
    Mat × Vec :=
  let U := carry.1
  let Lambda := carry.2
  let U_tilde := matMul
    (subM (transposeM H) (matMul U (matMul (transposeM U) (transposeM H)))) A
  let v := getCol U_tilde i
  let u := normalizeV v
  let U_cond := if vmin Lambda < dotV u v then setCol U (argminV Lambda) u else U
  let Lambda_cond :=
    if vmin Lambda < dotV u v then Lambda.set (argminV Lambda) (dotV u v)
    else Lambda
  (U_cond, Lambda_cond)

/-- Embedding of lofi_core._lofi_orth_condition_on.  The caller-seeded random
permutation `jr.permutation(key, C)` is abstracted as the parameter `perm`
(the claims quantify over every permutation).  Returns
(m_cond, U_cond, Lambda_cond). -/
def lofi_orth_condition_on (jacrev2d : (Vec → Vec) → Vec → Mat)
    (cholesky : Mat → Mat) (lstsqSolve : Mat → Mat → Mat)
    (matInv : Mat → Mat) (m : Vec) (U : Mat) (Lambda : Vec) (eta : ℝ)
    (y_cond_mean : Vec → Vec → Vec) (y_cond_cov : Vec → Vec → Mat)
    (x y : Vec) (adaptive_variance : Bool) (obs_noise_var : ℝ)
    (perm : List ℕ) : Vec × Mat × Vec :=
  let m_Y := fun w => y_cond_mean w x
  let Cov_Y := fun w => y_cond_cov w x
  let yhat := m_Y m
  let C := yhat.length
  let R := if adaptive_variance then smulM obs_noise_var (eyeM C)
           else Cov_Y m
  let R_chol := cholesky R
  let A := transposeM (lstsqSolve R_chol (eyeM C))
  let H := jacrev2d m_Y m
  let W_tilde := hstack (colScale Lambda U) (matMul (transposeM H) A)
  let S := addM (smulM eta (eyeM (numCols W_tilde)))
    (matMul (transposeM W_tilde) W_tilde)
  let K := subM
    (matMul (matMul (transposeM H) A) (transposeM A))
    (matMul W_tilde (matMul (invert_2x2_block_matrix matInv S C)
      (matMul (transposeM W_tilde)
        (matMul (matMul (transposeM H) A) (transposeM A)))))
  let UL := perm.foldl (lofi_orth_update_basis H A) (U, Lambda)
  let m_cond := addV m (matVecM (divsM K eta) (subV y yhat))
  (m_cond, UL.1, UL.2)

/-- Embedding of the basis-update sweep body local to
orfit_inference._generalized_orfit_condition_on (its inner `_update_basis`):
here the candidate matrix `U_tilde` is fixed outside the sweep, and the
admission test is the conjunction of `Sigma.min() < u @ v` and
`sv_threshold < u @ v` (two nested jnp.where).  -/
def orfit_update_basis (sv_threshold : ℝ) (U_tilde : Mat)
    (carry : Mat × Vec) (i : ℕ) : Mat × Vec :=
  let U := carry.1
  let Sigma := carry.2
  let v := getCol U_tilde i
  let u := normalizeV v
  let U_cond :=
    if vmin Sigma < dotV u v then
      (if sv_threshold < dotV u v then setCol U (argminV Sigma) u else U)
    else U
  let Sigma_cond :=
    if vmin Sigma < dotV u v then
      (if sv_threshold < dotV u v then Sigma.set (argminV Sigma) (dotV u v)
       else Sigma)
    else Sigma
  (U_cond, Sigma_cond)

/-- Embedding of orfit_inference._generalized_orfit_condition_on.  Returns
(m_cond, U_cond, Sigma_cond). -/
def generalized_orfit_condition_on (jacrev2d : (Vec → Vec) → Vec → Mat)
    (cholesky : Mat → Mat) (lstsqSolve : Mat → Mat → Mat) (pinv : Mat → Mat)
    (m : Vec) (U : Mat) (Sigma : Vec) (eta : ℝ)
    (y_cond_mean : Vec → Vec → Vec) (y_cond_cov : Vec → Vec → Mat)
    (x y : Vec) (sv_threshold : ℝ) : Vec × Mat × Vec :=
  let m_Y := fun w => y_cond_mean w x
  let Cov_Y := fun w => y_cond_cov w x
  let yhat := m_Y m
  let R := Cov_Y m
  let L := cholesky R
  let A := transposeM (lstsqSolve L (eyeM L.length))
  let H := jacrev2d m_Y m
  let W_tilde := hstack (colScale Sigma U) (matMul (transposeM H) A)
  let S := addM (smulM eta (eyeM (numCols W_tilde)))
    (matMul (transposeM W_tilde) W_tilde)
  let K := subM
    (matMul (matMul (transposeM H) A) (transposeM A))
    (matMul W_tilde (matMul (pinv S)
      (matMul (transposeM W_tilde)
        (matMul (matMul (transposeM H) A) (transposeM A)))))
  let m_cond := addV m (matVecM (divsM K eta) (subV y yhat))
  let U_tilde := matMul
    (subM (transposeM H) (matMul U (matMul (transposeM U) (transposeM H)))) A
  let UL := (List.range (numCols U_tilde)).foldl
    (orfit_update_basis sv_threshold U_tilde) (U, Sigma)
  (m_cond, UL.1, UL.2)

/-- Belief state of the replay filter (replay_lofi.ReplayLoFiBel): ring
buffers of raw I/O and of every tracked field, plus the current fields.
chex arrays of stacked items are modelled as lists (index 0 = oldest). -/
structure ReplayLoFiBel where
  buffer_X : List Vec
  buffer_y : List Vec
  buffer_pp_mean : List Vec
  buffer_mean : List Vec
  buffer_basis : List Mat
  buffer_svs : List Vec
  buffer_eta : List ℝ
  buffer_Ups : List Vec
  buffer_obs_noise_var : List ℝ
  pp_mean : Vec
  mean : Vec
  mean_lin : Vec
  basis : Mat
  svs : Vec
  eta : ℝ
  gamma : ℝ
  q : ℝ
  Ups : Vec
  nobs : ℕ
  obs_noise_var : ℝ

/-- Embedding of ReplayLoFiBel._update_buffer: drop the oldest entry (FIFO)
and append the new item. -/
def update_buffer {α : Type} (buffer : List α) (item : α) : List α :=
  buffer.drop 1 ++ [item]

/-- Embedding of ReplayLoFiBel.apply_io_buffers. -/
def apply_io_buffers (bel : ReplayLoFiBel) (X y : Vec) : ReplayLoFiBel :=
  { bel with
    buffer_X := update_buffer bel.buffer_X X,
    buffer_y := update_buffer bel.buffer_y y }

/-- Embedding of ReplayLoFiBel.apply_param_buffers. -/
def apply_param_buffers (bel : ReplayLoFiBel) : ReplayLoFiBel :=
  { bel with
    buffer_pp_mean := update_buffer bel.buffer_pp_mean bel.pp_mean,
    buffer_mean := update_buffer bel.buffer_mean bel.mean,
    buffer_basis := update_buffer bel.buffer_basis bel.basis,
    buffer_svs := update_buffer bel.buffer_svs bel.svs,
    buffer_eta := update_buffer bel.buffer_eta bel.eta,
    buffer_Ups := update_buffer bel.buffer_Ups bel.Ups,
    buffer_obs_noise_var := update_buffer bel.buffer_obs_noise_var bel.obs_noise_var }

/-- Embedding of jax.lax.fori_loop(0, n, f, x): apply f at indices 0..n-1. -/
def foriLoop {α : Type} (n : ℕ) (f : ℕ → α → α) (x : α) : α :=
  (List.range n).foldl (fun a i => f i a) x

/-- Modelled from the spec: the numeric kernels and configuration used by
RebayesReplayLoFiDiagonal.  The kernel functions it calls
(`_replay_lofi_diagonal_cov_condition_on`, and the replay-arity variants of
`_lofi_diagonal_cov_inflate` / `_lofi_diagonal_cov_predict`) are imported by
replay_lofi.py but absent from this snapshot's lofi_core.py, so they are kept
uninterpreted here; the replay claims depend only on which belief fields they
feed, which is fixed by the code of replay_lofi.py itself.
Field order of each kernel mirrors the call sites:
`inflateK m0 m U Lambda eta Ups alpha inflation = (m_infl, U_infl, Lambda_infl, Ups_infl)`,
`predictK m0 m U Lambda gamma q eta Ups = (pp_mean, m, U, Lambda, eta, Ups)`,
`conditionK m m_lin U Lambda Ups x y adaptive obs_noise_var = (m, U, Lambda, Ups)`. -/
structure ReplayParams where
  inflateK : Vec → Vec → Mat → Vec → ℝ → Vec → ℝ → Inflation →
    Vec × Mat × Vec × Vec
  predictK : Vec → Vec → Mat → Vec → ℝ → ℝ → ℝ → Vec →
    Vec × Vec × Mat × Vec × ℝ × Vec
  conditionK : Vec → Vec → Mat → Vec → Vec → Vec → Vec → Bool → ℝ →
    Vec × Mat × Vec × Vec
  emission_mean : Vec → Vec → Vec
  adaptive_emission_cov : Bool
  inflation_factor : ℝ
  inflation : Inflation
  n_inner : ℕ

/-- Embedding of RebayesReplayLoFiDiagonal.predict_state: inflate then
predict, replacing pp_mean, mean, basis, svs, eta, Ups. -/
def predict_state (p : ReplayParams) (bel : ReplayLoFiBel) : ReplayLoFiBel :=
  let infl := p.inflateK bel.pp_mean bel.mean bel.basis bel.svs bel.eta
    bel.Ups p.inflation_factor p.inflation
  let m_infl := infl.1
  let U_infl := infl.2.1
  let Lambda_infl := infl.2.2.1
  let Ups_infl := infl.2.2.2
  let pred := p.predictK bel.pp_mean m_infl U_infl Lambda_infl bel.gamma
    bel.q bel.eta Ups_infl
  { bel with
    pp_mean := pred.1,
    mean := pred.2.1,
    basis := pred.2.2.1,
    svs := pred.2.2.2.1,
    eta := pred.2.2.2.2.1,
    Ups := pred.2.2.2.2.2 }

/-- Embedding of RebayesReplayLoFiDiagonal._update_state: condition on the
observation (linearizing at `mean_lin`), then run the noise estimator,
replacing mean, basis, svs, Ups, nobs, obs_noise_var. -/
def update_state (p : ReplayParams) (bel : ReplayLoFiBel) (x y : Vec) :
    ReplayLoFiBel :=
  let cond := p.conditionK bel.mean bel.mean_lin bel.basis bel.svs bel.Ups
    x y p.adaptive_emission_cov bel.obs_noise_var
  let noise := lofi_estimate_noise cond.1 p.emission_mean x y bel.nobs
    bel.obs_noise_var p.adaptive_emission_cov
  { bel with
    mean := cond.1,
    basis := cond.2.1,
    svs := cond.2.2.1,
    Ups := cond.2.2.2,
    nobs := noise.1,
    obs_noise_var := noise.2 }

/-- Embedding of RebayesReplayLoFi.replay_update_step: run one
predict+condition pass over every buffered (x, y) pair, then restore `nobs`
to its value on entry. -/
def replay_update_step (p : ReplayParams) (bel : ReplayLoFiBel) :
    ReplayLoFiBel :=
  let X := bel.buffer_X
  let Y := bel.buffer_y
  let init_nobs := bel.nobs
  let num_timesteps := X.length
  let bel1 := foriLoop num_timesteps
    (fun t b => update_state p (predict_state p b) (X.getD t []) (Y.getD t []))
    bel
  { bel1 with nobs := init_nobs }

/-- The restoration phase at the start of
RebayesReplayLoFi.update_state_with_replay: append the new (x, y) to the I/O
ring buffers, then reset the tracked fields to the oldest buffered snapshot
(index 0) while setting `mean_lin` to the newest mean. -/
def replay_restore (bel : ReplayLoFiBel) (x y : Vec) : ReplayLoFiBel :=
  let belb := apply_io_buffers bel x y
  { belb with
    pp_mean := belb.buffer_pp_mean.getD 0 [],
    mean := belb.buffer_mean.getD 0 [],
    mean_lin := belb.mean,
    basis := belb.buffer_basis.getD 0 [],
    svs := belb.buffer_svs.getD 0 [],
    eta := belb.buffer_eta.getD 0 0,
    Ups := belb.buffer_Ups.getD 0 [],
    obs_noise_var := belb.buffer_obs_noise_var.getD 0 0 }

/-- Embedding of RebayesReplayLoFi.update_state_with_replay: restore, run
n_inner replay passes, count the single new observation, snapshot. -/
def update_state_with_replay (p : ReplayParams) (bel : ReplayLoFiBel)
    (x y : Vec) : ReplayLoFiBel :=
  let bel1 := replay_restore bel x y
  let bel2 := foriLoop p.n_inner (fun _ b => replay_update_step p b) bel1
  let bel3 := { bel2 with nobs := bel2.nobs + 1 }
  apply_param_buffers bel3

/-- A d-by-r rectangular matrix: d rows, each of length r. -/
def isRect (M : Mat) (d r : ℕ) : Prop :=
  M.length = d ∧ ∀ row ∈ M, row.length = r

/-- Modelled from the spec: one diagonal-variant timestep of the scan driver
(control flow per the spec: inflate, then predict, then condition-on; the
variant driver classes importing these kernels are not part of this
snapshot's sources, so the composition follows the spec's control-flow
section).  The belief carried is (mean, basis, scale, Ups). -/
def lofi_diagonal_step (jacrev2d : (Vec → Vec) → Vec → Mat)
    (cholesky : Mat → Mat) (lstsqSolve : Mat → Mat → Mat)
    (svd : Mat → Mat × Vec × Mat) (pinv : Mat → Mat)
    (y_cond_mean : Vec → Vec → Vec) (y_cond_cov : Vec → Vec → Mat)
    (m0 : Vec) (eta alpha gamma q sv_threshold obs_noise_var : ℝ)
    (inflation : Inflation) (ss adaptive_variance : Bool)
    (b : Vec × Mat × Vec × Vec) (xy : Vec × Vec) : Vec × Mat × Vec × Vec :=
  let infl := lofi_diagonal_cov_inflate pinv svd m0 b.1 b.2.1 b.2.2.1
    gamma q eta b.2.2.2 alpha inflation
  let pred := lofi_diagonal_cov_predict pinv cholesky svd infl.1 infl.2.1
    infl.2.2.1 gamma q infl.2.2.2.1 ss
  lofi_diagonal_cov_condition_on jacrev2d cholesky lstsqSolve svd pinv
    pred.1 pred.2.1 pred.2.2.1 pred.2.2.2 y_cond_mean y_cond_cov xy.1 xy.2
    sv_threshold adaptive_variance obs_noise_var

/-- A stand-in SVD routine with the library's output shapes
(u is d-by-min(d,k), s has length min(d,k)); used to instantiate the
external-routine parameters in concrete witnesses. -/
def svdDummy : Mat → Mat × Vec × Mat := fun W =>
  (zerosM W.length (min W.length (numCols W)),
   List.replicate (min W.length (numCols W)) 0, [])

/-- A stand-in Cholesky routine with the library's output shape. -/
def cholDummy : Mat → Mat := fun M => zerosM M.length (numCols M)

/-- A stand-in least-squares solve with the library's output shape. -/
def lstsqDummy : Mat → Mat → Mat := fun L B => zerosM (numCols L) (numCols B)

/-- A stand-in pseudo-inverse with the library's output shape. -/
def pinvDummy : Mat → Mat := fun M => zerosM (numCols M) M.length

/-- A stand-in small-matrix inverse with the library's output shape. -/
def matInvDummy : Mat → Mat := fun M => zerosM M.length (numCols M)

/-- A stand-in autodiff jacobian: the jacobian of f at m has one row per
output coordinate and one column per parameter. -/
def jacDummy : (Vec → Vec) → Vec → Mat :=
  fun f m => (f m).map (fun _ => List.replicate m.length 0)

/-- The identity as a stand-in matrix routine (e.g. a Cholesky factor or
pseudo-inverse of the identity matrix is the identity matrix). -/
def idDummy : Mat → Mat := fun M => M

/-- A constant stand-in SVD returning the fixed factorization
([[1]], [1], [[1]]); used for witnesses whose SVD-recovery hypothesis is at a
single point. -/
def svdConst : Mat → Mat × Vec × Mat := fun _ => ([[1]], [1], [[1]])

/-- A stand-in emission mean function with a one-dimensional emission. -/
def emisDummy : Vec → Vec → Vec := fun _ _ => [0]

/-- A stand-in emission covariance function matching emisDummy's dimension. -/
def covDummy : Vec → Vec → Mat := fun _ _ => [[1]]

/-- C3: the claim as stated is false on the code: with adaptive variance off,
`_lofi_estimate_noise` does not return the input pair `(nobs, obs_noise_var)`
unchanged (here `(5, 2)`); it returns the constant `(0, 0.0)`. -/
theorem C3_counterexample :
    ¬ (lofi_estimate_noise [0] (fun _ _ => [0]) [0] [0] 5 2 false = (5, 2)) := by
  simp [lofi_estimate_noise, Prod.ext_iff]

/-- C3 (amended): when adaptive variance is off, `_lofi_estimate_noise`
ignores its inputs and returns the constant pair `(0, 0.0)` for every mean,
emission function, input, observation, `nobs` and `obs_noise_var`. -/
theorem C3_amended (m : Vec) (f : Vec → Vec → Vec) (x y : Vec)
    (nobs : ℕ) (obs_noise_var : ℝ) :
    lofi_estimate_noise m f x y nobs obs_noise_var false = (0, 0) := by
  simp [lofi_estimate_noise]

/-- A fold preserves any quantity each step preserves. -/
theorem foldl_invariant {α β γ : Type} (g : α → β) (f : α → γ → α)
    (h : ∀ a c, g (f a c) = g a) :
    ∀ (l : List γ) (x : α), g (l.foldl f x) = g x := by
  intro l
  induction l with
  | nil => intro x; rfl
  | cons c t ih => intro x; rw [List.foldl_cons, ih, h]

/-- foriLoop preserves any quantity each iteration preserves. -/
theorem foriLoop_invariant {α β : Type} (g : α → β) (f : ℕ → α → α)
    (h : ∀ i a, g (f i a) = g a) (n : ℕ) (x : α) :
    g (foriLoop n f x) = g x :=
  foldl_invariant g (fun a i => f i a) (fun a c => h c a) (List.range n) x

/-- replay_update_step restores nobs to its value on entry. -/
theorem replay_update_step_nobs (p : ReplayParams) (bel : ReplayLoFiBel) :
    (replay_update_step p bel).nobs = bel.nobs := rfl

/-- Neither conditioning nor prediction touches the linearization point. -/
theorem update_predict_mean_lin (p : ReplayParams) (b : ReplayLoFiBel)
    (x y : Vec) :
    (update_state p (predict_state p b) x y).mean_lin = b.mean_lin := rfl

/-- A full replay pass leaves the linearization point unchanged. -/
theorem replay_update_step_mean_lin (p : ReplayParams) (bel : ReplayLoFiBel) :
    (replay_update_step p bel).mean_lin = bel.mean_lin := by
  show (foriLoop bel.buffer_X.length _ bel).mean_lin = bel.mean_lin
  exact foriLoop_invariant (fun b => b.mean_lin) _
    (fun i a => update_predict_mean_lin p a _ _) _ bel

/-- C2: a replay-phase update step increments nobs by exactly one, for every
belief, input, observation and n_inner (in particular every n_inner >= 1),
whatever the inner predict+condition kernels do; and replay_update_step
leaves nobs equal to its value on entry. -/
theorem C2_replay_nobs (p : ReplayParams) (bel : ReplayLoFiBel) (x y : Vec) :
    (replay_update_step p bel).nobs = bel.nobs ∧
    (update_state_with_replay p bel x y).nobs = bel.nobs + 1 := by
  constructor
  · rfl
  · show (foriLoop p.n_inner _ (replay_restore bel x y)).nobs + 1 = bel.nobs + 1
    rw [foriLoop_invariant (fun b => b.nobs) _
      (fun i a => replay_update_step_nobs p a)]
    rfl

/-- C8: at the start of a replay-phase update, after the new (x, y) is
appended to the I/O ring buffers, pp_mean, mean, basis, svs, eta, Ups and
obs_noise_var are restored from index 0 (the oldest entry) of their ring
buffers, while mean_lin is set to the mean held immediately before the
restoration (the newest mean); and mean_lin is not modified by the n_inner
replay passes (the final belief still carries it). -/
theorem C8_replay_restore (p : ReplayParams) (bel : ReplayLoFiBel)
    (x y : Vec) :
    (replay_restore bel x y).buffer_X = bel.buffer_X.drop 1 ++ [x] ∧
    (replay_restore bel x y).buffer_y = bel.buffer_y.drop 1 ++ [y] ∧
    (replay_restore bel x y).pp_mean = bel.buffer_pp_mean.getD 0 [] ∧
    (replay_restore bel x y).mean = bel.buffer_mean.getD 0 [] ∧
    (replay_restore bel x y).basis = bel.buffer_basis.getD 0 [] ∧
    (replay_restore bel x y).svs = bel.buffer_svs.getD 0 [] ∧
    (replay_restore bel x y).eta = bel.buffer_eta.getD 0 0 ∧
    (replay_restore bel x y).Ups = bel.buffer_Ups.getD 0 [] ∧
    (replay_restore bel x y).obs_noise_var = bel.buffer_obs_noise_var.getD 0 0 ∧
    (replay_restore bel x y).mean_lin = bel.mean ∧
    (update_state_with_replay p bel x y).mean_lin = bel.mean := by
  refine ⟨rfl, rfl, rfl, rfl, rfl, rfl, rfl, rfl, rfl, rfl, ?_⟩
  show (foriLoop p.n_inner _ (replay_restore bel x y)).mean_lin = bel.mean
  rw [foriLoop_invariant (fun b => b.mean_lin) _
    (fun i a => replay_update_step_mean_lin p a)]
  rfl

/-- C9: the 'simple' and 'hybrid' inflation policies never move the mean: in
both the spherical and the diagonal variant, for every belief and every
inflation factor (in particular every alpha >= 0), the returned mean equals
the input mean. -/
theorem C9_inflation_mean_frame (pinv : Mat → Mat) (svd : Mat → Mat × Vec × Mat)
    (m0 m : Vec) (U : Mat) (Lambda : Vec) (eta alpha gamma q : ℝ) (Ups : Vec) :
    (lofi_spherical_cov_inflate pinv m0 m U Lambda eta alpha .simple).1 = m ∧
    (lofi_spherical_cov_inflate pinv m0 m U Lambda eta alpha .hybrid).1 = m ∧
    (lofi_diagonal_cov_inflate pinv svd m0 m U Lambda gamma q eta Ups alpha .simple).1 = m ∧
    (lofi_diagonal_cov_inflate pinv svd m0 m U Lambda gamma q eta Ups alpha .hybrid).1 = m :=
  ⟨rfl, rfl, rfl, rfl⟩

/-- The squared norm of a vector is non-negative. -/
theorem normSq_nonneg (v : Vec) : 0 ≤ normSq v := by
  induction v with
  | nil => simp [normSq, dotV]
  | cons a t ih =>
      have h : normSq (a :: t) = a * a + normSq t := by
        simp [normSq, dotV]
      rw [h]
      exact add_nonneg (mul_self_nonneg a) ih

/-- Entry i of a zipWith, below the length bound. -/
theorem zipWith_getD (f : ℝ → ℝ → ℝ) :
    ∀ (a b : List ℝ) (i : ℕ), i < (List.zipWith f a b).length →
      (List.zipWith f a b).getD i 0 = f (a.getD i 0) (b.getD i 0) := by
  intro a
  induction a with
  | nil => intro b i h; simp at h
  | cons x t ih =>
      intro b i h
      cases b with
      | nil => simp at h
      | cons y s =>
          cases i with
          | zero => rfl
          | succ j =>
              simp only [List.zipWith_cons_cons, List.length_cons] at h
              simpa using ih s j (Nat.lt_of_succ_lt_succ h)

/-- Entry i of rowNormSq, below the length bound. -/
theorem rowNormSq_getD :
    ∀ (M : Mat) (i : ℕ), i < M.length →
      (rowNormSq M).getD i 0 = normSq (M.getD i []) := by
  intro M
  induction M with
  | nil => intro i h; simp at h
  | cons r t ih =>
      intro i h
      cases i with
      | zero => rfl
      | succ j =>
          simp only [List.length_cons] at h
          simpa [rowNormSq] using ih j (Nat.lt_of_succ_lt_succ h)

/-- Componentwise, adding squared row norms can only increase a vector. -/
theorem addV_rowNormSq_mono (Ups : Vec) (M : Mat) (i : ℕ)
    (hi : i < (addV Ups (rowNormSq M)).length) :
    Ups.getD i 0 ≤ (addV Ups (rowNormSq M)).getD i 0 := by
  unfold addV
  rw [zipWith_getD _ Ups (rowNormSq M) i hi]
  have hlen : i < (rowNormSq M).length := by
    unfold addV at hi
    rw [List.length_zipWith] at hi
    exact lt_of_lt_of_le hi (Nat.min_le_right _ _)
  have hnn : 0 ≤ (rowNormSq M).getD i 0 := by
    rw [rowNormSq_getD _ i (by simpa [rowNormSq] using hlen)]
    exact normSq_nonneg _
  exact le_add_of_nonneg_right hnn

/-- C10: the diagonal-variant condition-on never decreases the residual
term: the returned Ups equals the input Ups plus, componentwise, the squared
row norms of the truncated (discarded) low-rank directions of the SVD of the
augmented factor, hence is componentwise at least the input Ups. -/
theorem C10_diag_Ups_monotone (jacrev2d : (Vec → Vec) → Vec → Mat)
    (cholesky : Mat → Mat) (lstsqSolve : Mat → Mat → Mat)
    (svd : Mat → Mat × Vec × Mat) (pinv : Mat → Mat)
    (m : Vec) (U : Mat) (Sigma : Vec) (Ups : Vec)
    (y_cond_mean : Vec → Vec → Vec) (y_cond_cov : Vec → Vec → Mat)
    (x y : Vec) (sv_threshold : ℝ) (adaptive_variance : Bool)
    (obs_noise_var : ℝ) :
    ∃ u lamb vT,
      svd (hstack (colScale Sigma U)
          (matMul (transposeM (jacrev2d (fun w => y_cond_mean w x) m))
            (transposeM (lstsqSolve
              (cholesky (if adaptive_variance then
                  smulM obs_noise_var (eyeM (y_cond_mean m x).length)
                else y_cond_cov m x))
              (eyeM (cholesky (if adaptive_variance then
                  smulM obs_noise_var (eyeM (y_cond_mean m x).length)
                else y_cond_cov m x)).length))))) = (u, lamb, vT) ∧
      (lofi_diagonal_cov_condition_on jacrev2d cholesky lstsqSolve svd pinv
          m U Sigma Ups y_cond_mean y_cond_cov x y sv_threshold
          adaptive_variance obs_noise_var).2.2.2 =
        addV Ups (rowNormSq (colScale (lamb.drop (numCols U))
          (dropCols (numCols U) u))) ∧
      ∀ i : ℕ,
        i < (lofi_diagonal_cov_condition_on jacrev2d cholesky lstsqSolve svd
            pinv m U Sigma Ups y_cond_mean y_cond_cov x y sv_threshold
            adaptive_variance obs_noise_var).2.2.2.length →
        Ups.getD i 0 ≤
          (lofi_diagonal_cov_condition_on jacrev2d cholesky lstsqSolve svd
            pinv m U Sigma Ups y_cond_mean y_cond_cov x y sv_threshold
            adaptive_variance obs_noise_var).2.2.2.getD i 0 := by
  refine ⟨_, _, _, rfl, rfl, ?_⟩
  exact fun i hi => addV_rowNormSq_mono Ups _ i hi

/-- C10 witness: a concrete run of the diagonal condition-on in which the
componentwise bound of C10_diag_Ups_monotone is instantiated at index 0. -/
theorem C10_witness :
    ([1] : Vec).getD 0 0 ≤
      (lofi_diagonal_cov_condition_on jacDummy cholDummy lstsqDummy svdDummy
        pinvDummy [0] [[0]] [0] [1] (fun _ _ => [0]) (fun _ _ => [[1]])
        [0] [0] 0 true 1).2.2.2.getD 0 0 := by
  obtain ⟨u, lamb, vT, h1, h2, h3⟩ :=
    C10_diag_Ups_monotone jacDummy cholDummy lstsqDummy svdDummy pinvDummy
      [0] [[0]] [0] [1] (fun _ _ => [0]) (fun _ _ => [[1]]) [0] [0] 0 true 1
  refine h3 0 ?_
  simp [lofi_diagonal_cov_condition_on, addV, rowNormSq, colScale, dropCols,
    svdDummy, cholDummy, lstsqDummy, jacDummy, hstack, matMul, transposeM,
    numCols, zerosM, eyeM, smulM, smulV, List.length_zipWith]

/-- The source's sqrt-of-ratio form agrees with the spec's ratio-of-sqrt form
for non-negative gamma and scale, whatever the (possibly zero or negative)
denominator. -/
theorem sqrt_sq_mul_div (a b D : ℝ) (ha : 0 ≤ a) (hb : 0 ≤ b) :
    Real.sqrt ((a^2 * b^2) / D) = a * b / Real.sqrt D := by
  rw [show a^2 * b^2 = (a*b)^2 by ring]
  rw [Real.sqrt_div (sq_nonneg (a*b)) D]
  rw [Real.sqrt_sq (mul_nonneg ha hb)]

/-- C4: the claim as stated is false on the code: with gamma = -1, the
steady-state spherical predict returns scale sqrt(gamma^2*l^2/(1+q*l^2)) = 1,
not gamma*l/sqrt(1+q*l^2) = -1, at l = 1, q = 0. -/
theorem C4_counterexample :
    ¬ ((lofi_spherical_cov_predict [] [] [] [1] (-1) 0 1 true).2.2.2.1 =
        [(-1 : ℝ) * 1 / Real.sqrt (1 + 0 * 1^2)]) := by
  intro h
  simp [lofi_spherical_cov_predict] at h
  norm_num [Real.sqrt_one] at h

/-- C4 (amended): the spherical predict closed forms hold as stated provided
gamma >= 0, for every belief whose scale entries are non-negative (the
data-model invariant): mean maps to gamma*mean; in non-steady-state mode the
precision becomes eta/(gamma^2+q*eta) and each scale l maps to
gamma*l/sqrt((gamma^2+q*eta)*(gamma^2+q*eta+q*l^2)); in steady-state mode the
precision is unchanged and each scale l maps to gamma*l/sqrt(1+q*l^2). -/
theorem C4_amended (m0 m : Vec) (U : Mat) (Lambda : Vec) (gamma q eta : ℝ)
    (hg : 0 ≤ gamma) (hL : ∀ l ∈ Lambda, 0 ≤ l) :
    (lofi_spherical_cov_predict m0 m U Lambda gamma q eta false).2.1 = smulV gamma m ∧
    (lofi_spherical_cov_predict m0 m U Lambda gamma q eta true).2.1 = smulV gamma m ∧
    (lofi_spherical_cov_predict m0 m U Lambda gamma q eta false).2.2.2.2 =
      eta/(gamma^2 + q*eta) ∧
    (lofi_spherical_cov_predict m0 m U Lambda gamma q eta true).2.2.2.2 = eta ∧
    (lofi_spherical_cov_predict m0 m U Lambda gamma q eta false).2.2.2.1 =
      Lambda.map (fun l => gamma * l /
        Real.sqrt ((gamma^2 + q*eta) * (gamma^2 + q*eta + q*l^2))) ∧
    (lofi_spherical_cov_predict m0 m U Lambda gamma q eta true).2.2.2.1 =
      Lambda.map (fun l => gamma * l / Real.sqrt (1 + q*l^2)) := by
  refine ⟨rfl, rfl, rfl, rfl, ?_, ?_⟩
  · exact List.map_congr_left (fun l hl => sqrt_sq_mul_div gamma l _ hg (hL l hl))
  · exact List.map_congr_left (fun l hl => sqrt_sq_mul_div gamma l _ hg (hL l hl))

/-- C4 witness: the amended claim instantiated at gamma = 1, q = 0, eta = 1,
scale [0]. -/
theorem C4_witness :
    (lofi_spherical_cov_predict [] [] [] [0] 1 0 1 false).2.2.2.2 =
      1/((1:ℝ)^2 + 0*1) :=
  (C4_amended [] [] [] [0] 1 0 1 zero_le_one (by simp)).2.2.1

/-- Adding the zero-scaled correction leaves the mean unchanged, whenever the
correction is at least as long as the mean. -/
theorem addV_smulV_zero (m : Vec) :
    ∀ K : Vec, m.length ≤ K.length → addV m (smulV 0 K) = m := by
  induction m with
  | nil => intro K h; rfl
  | cons a t ih =>
      intro K h
      cases K with
      | nil => simp at h
      | cons b s =>
          simp only [List.length_cons, Nat.succ_le_succ_iff] at h
          show (a + 0 * b) :: addV t (smulV 0 s) = a :: t
          rw [zero_mul, add_zero, ih s h]

/-- Dividing a matrix by the scalar one is the identity. -/
theorem divsM_one (A : Mat) : divsM A 1 = A := by
  simp [divsM]

/-- C5: the claim as stated is false on the code: with alpha = 0 the diagonal
inflate does not return its input belief; at gamma = 2, q = 0, eta = 1 it
returns precision eta/(gamma^2+q*eta) = 1/4, not 1 (policy 'simple'). -/
theorem C5_counterexample :
    ¬ (lofi_diagonal_cov_inflate pinvDummy svdDummy [0] [0] [[0]] [0] 2 0 1
        [1] 0 .simple = ([0], [[0]], [0], [1], 1)) := by
  intro h
  have h5 := congrArg (fun t : Vec × Mat × Vec × Vec × ℝ => t.2.2.2.2) h
  simp only [lofi_diagonal_cov_inflate] at h5
  norm_num at h5

/-- C5 (amended): with alpha = 0 the spherical inflate is the identity on
(mean, basis, scale, precision) under all three policies; the diagonal
inflate leaves the mean and Ups unchanged and feeds the unchanged factor
U*Sigma to the SVD re-factorization (so basis and scale are the SVD factors
of the unchanged low-rank factor), but returns precision eta/(gamma^2+q*eta)
rather than eta. -/
theorem C5_amended (pinv : Mat → Mat) (svd : Mat → Mat × Vec × Mat)
    (m0 m : Vec) (U : Mat) (Lambda Sigma : Vec) (eta gamma q : ℝ) (Ups : Vec)
    (hm0 : m0.length = m.length) (hU : U.length = m.length)
    (hUps : Ups.length = m.length) (p : Inflation) :
    lofi_spherical_cov_inflate pinv m0 m U Lambda eta 0 p = (m, U, Lambda, eta) ∧
    lofi_diagonal_cov_inflate pinv svd m0 m U Sigma gamma q eta Ups 0 p =
      (m, (svd (colScale Sigma U)).1, (svd (colScale Sigma U)).2.1, Ups,
        eta/(gamma^2 + q*eta)) := by
  cases p with
  | simple =>
      constructor
      · simp [lofi_spherical_cov_inflate, Real.sqrt_one]
      · simp [lofi_diagonal_cov_inflate, Real.sqrt_one, divsM_one]
  | hybrid =>
      constructor
      · simp [lofi_spherical_cov_inflate, Real.sqrt_one]
      · simp [lofi_diagonal_cov_inflate, Real.sqrt_one, divsM_one]
  | bayesian =>
      constructor
      · simp only [lofi_spherical_cov_inflate, Real.sqrt_one, add_zero,
          Real.sqrt_one, div_one, zero_div, List.map_id']
        refine Prod.ext ?_ rfl
        apply addV_smulV_zero
        simp [subV, matVecM, matMul, divsM, colScale, List.length_zipWith,
          hm0, hU]
      · simp only [lofi_diagonal_cov_inflate, add_zero, Real.sqrt_one,
          div_one, zero_mul, zero_div, List.map_id', divsM_one]
        refine Prod.ext ?_ rfl
        apply addV_smulV_zero
        simp [subV, matVecM, matMul, divsM, colScale, List.length_zipWith,
          hm0, hU, hUps]

/-- C5 witness: the amended claim instantiated at a concrete belief
(policy 'simple', gamma = 1, q = 0). -/
theorem C5_witness :
    lofi_spherical_cov_inflate pinvDummy [0] [0] [[0]] [0] 1 0 .simple =
      ([0], [[0]], [0], 1) :=
  (C5_amended pinvDummy svdDummy [0] [0] [[0]] [0] [0] 1 1 0 [0]
    rfl rfl rfl .simple).1

/-- The orfit sweep step is the identity when the candidate energy does not
exceed the admission threshold. -/
theorem orfit_step_below_threshold (tau : ℝ) (Ut U : Mat) (L : Vec) (i : ℕ)
    (h : dotV (normalizeV (getCol Ut i)) (getCol Ut i) ≤ tau) :
    orfit_update_basis tau Ut (U, L) i = (U, L) := by
  unfold orfit_update_basis
  by_cases h1 : vmin L < dotV (normalizeV (getCol Ut i)) (getCol Ut i)
  · simp only [if_pos h1, if_neg (not_lt.mpr h)]
  · simp only [if_neg h1]

/-- The orfit sweep step can change the carry only when the candidate energy
strictly exceeds both the current minimum scale and the threshold. -/
theorem orfit_step_change_needs_both (tau : ℝ) (Ut U : Mat) (L : Vec) (i : ℕ)
    (h : orfit_update_basis tau Ut (U, L) i ≠ (U, L)) :
    vmin L < dotV (normalizeV (getCol Ut i)) (getCol Ut i) ∧
    tau < dotV (normalizeV (getCol Ut i)) (getCol Ut i) := by
  by_contra hcon
  apply h
  unfold orfit_update_basis
  by_cases h1 : vmin L < dotV (normalizeV (getCol Ut i)) (getCol Ut i)
  · have h2 : ¬ tau < dotV (normalizeV (getCol Ut i)) (getCol Ut i) :=
      fun h2 => hcon ⟨h1, h2⟩
    simp only [if_pos h1, if_neg h2]
  · simp only [if_neg h1]

/-- The lofi orthogonal sweep step can change the carry only when the
candidate energy strictly exceeds the current minimum scale (there is no
threshold test in this variant). -/
theorem lofi_orth_step_change_needs_min (H A U : Mat) (L : Vec) (i : ℕ)
    (h : lofi_orth_update_basis H A (U, L) i ≠ (U, L)) :
    vmin L < dotV
      (normalizeV (getCol (matMul (subM (transposeM H)
        (matMul U (matMul (transposeM U) (transposeM H)))) A) i))
      (getCol (matMul (subM (transposeM H)
        (matMul U (matMul (transposeM U) (transposeM H)))) A) i) := by
  by_contra hcon
  apply h
  unfold lofi_orth_update_basis
  simp only [if_neg hcon]

/-- The whole orfit sweep is the identity when every candidate energy is at
most the admission threshold. -/
theorem orfit_sweep_below_threshold (tau : ℝ) (Ut U : Mat) (L : Vec) :
    ∀ l : List ℕ,
      (∀ j ∈ l, dotV (normalizeV (getCol Ut j)) (getCol Ut j) ≤ tau) →
      l.foldl (orfit_update_basis tau Ut) (U, L) = (U, L) := by
  intro l
  induction l with
  | nil => intro _; rfl
  | cons j t ih =>
      intro h
      rw [List.foldl_cons,
        orfit_step_below_threshold tau Ut U L j (h j (List.mem_cons_self j t)),
        ih (fun k hk => h k (List.mem_cons_of_mem j hk))]

/-- C1: the claim as stated is false on the code: the basis-update sweep of
lofi_core._lofi_orth_condition_on takes no admission threshold at all; with a
configured sv_threshold of 2, a candidate direction of projected energy 1
(strictly below 2) that exceeds the minimum scale 0 is installed in the
returned basis and scale. -/
theorem C1_counterexample :
    lofi_orth_update_basis [[(1:ℝ)]] [[1]] ([[0]], [0]) 0 = ([[1]], [1]) ∧
    ((1:ℝ) < 2) := by
  constructor
  · have h1 : getCol (matMul (subM (transposeM [[(1:ℝ)]])
        (matMul [[0]] (matMul (transposeM [[(0:ℝ)]]) (transposeM [[(1:ℝ)]]))))
        [[(1:ℝ)]]) 0 = [1] := by
      simp [getCol, matMul, subM, subV, transposeM, numCols, List.range_succ,
        dotV]
    have h2 : normalizeV [(1:ℝ)] = [1] := by
      simp [normalizeV, normSq, dotV, divsV]
    have h3 : dotV [(1:ℝ)] [1] = 1 := by simp [dotV]
    have h4 : vmin [(0:ℝ)] = 0 := by simp [vmin]
    have h5 : argminV [(0:ℝ)] = 0 := by
      simp [argminV, vmin, List.findIdx_cons]
    simp only [lofi_orth_update_basis]
    rw [h1, h2, h3, h4, h5, if_pos zero_lt_one, if_pos zero_lt_one]
    simp [setCol]
  · norm_num

/-- C1 (amended): in orfit_inference._generalized_orfit_condition_on each
basis-column replacement performed by the sweep requires the candidate's
projected energy to strictly exceed both the currently smallest scale entry
and sv_threshold, so a candidate with energy at most sv_threshold never
changes basis or scale (at a single step or over the whole sweep); in
lofi_core._lofi_orth_condition_on, however, the sweep admits a candidate
whenever its energy exceeds the current minimum scale, with no threshold
test. -/
theorem C1_amended (tau : ℝ) (Ut U H A : Mat) (L : Vec) (i : ℕ)
    (l : List ℕ) :
    (dotV (normalizeV (getCol Ut i)) (getCol Ut i) ≤ tau →
      orfit_update_basis tau Ut (U, L) i = (U, L)) ∧
    (orfit_update_basis tau Ut (U, L) i ≠ (U, L) →
      vmin L < dotV (normalizeV (getCol Ut i)) (getCol Ut i) ∧
      tau < dotV (normalizeV (getCol Ut i)) (getCol Ut i)) ∧
    ((∀ j ∈ l, dotV (normalizeV (getCol Ut j)) (getCol Ut j) ≤ tau) →
      l.foldl (orfit_update_basis tau Ut) (U, L) = (U, L)) ∧
    (lofi_orth_update_basis H A (U, L) i ≠ (U, L) →
      vmin L < dotV
        (normalizeV (getCol (matMul (subM (transposeM H)
          (matMul U (matMul (transposeM U) (transposeM H)))) A) i))
        (getCol (matMul (subM (transposeM H)
          (matMul U (matMul (transposeM U) (transposeM H)))) A) i)) :=
  ⟨orfit_step_below_threshold tau Ut U L i,
   orfit_step_change_needs_both tau Ut U L i,
   orfit_sweep_below_threshold tau Ut U L l,
   lofi_orth_step_change_needs_min H A U L i⟩

/-- C1 witness: the amended claim instantiated at a concrete zero candidate,
whose energy 0 is below the threshold 1, so the sweep step keeps the carry. -/
theorem C1_witness :
    orfit_update_basis 1 [[0]] ([[0]], [0]) 0 = ([[0]], [0]) :=
  (C1_amended 1 [[0]] [[0]] [[0]] [[0]] [0] 0 []).1
    (by simp [getCol, normalizeV, dotV])

/-- Scaling a vector by one is the identity. -/
theorem smulV_one (v : Vec) : smulV 1 v = v := by
  simp [smulV]

/-- A zero-scaled vector has zero dot product with anything. -/
theorem dotV_smul_zero : ∀ v w : Vec, dotV (smulV 0 v) w = 0 := by
  intro v
  induction v with
  | nil => intro w; rfl
  | cons a t ih =>
      intro w
      cases w with
      | nil => rfl
      | cons b s =>
          show (0 * a) * b + dotV (smulV 0 t) s = 0
          rw [zero_mul, zero_mul, ih s, add_zero]

/-- The transpose has one row per column. -/
theorem transposeM_length (M : Mat) : (transposeM M).length = numCols M := by
  simp [transposeM]

/-- Multiplying a zero matrix gives an all-zero matrix. -/
theorem zero_matMul (M N : Mat) :
    matMul (smulM 0 M) N =
      List.replicate M.length (List.replicate (numCols N) 0) := by
  unfold matMul smulM
  rw [List.map_map]
  have h : ∀ row : Vec,
      (transposeM N).map (fun col => dotV (smulV 0 row) col) =
        List.replicate (numCols N) (0:ℝ) := by
    intro row
    have h2 : (fun col => dotV (smulV 0 row) col) = fun _ : Vec => (0:ℝ) := by
      funext col
      exact dotV_smul_zero row col
    rw [h2, List.map_const', transposeM_length]
  calc M.map ((fun row => (transposeM N).map fun col => dotV row col) ∘ smulV 0)
      = M.map (fun _ => List.replicate (numCols N) (0:ℝ)) :=
        List.map_congr_left (fun row _ => h row)
    _ = List.replicate M.length (List.replicate (numCols N) 0) :=
        List.map_const' M _

/-- Adding a sufficiently wide zero vector is the identity. -/
theorem addV_zeros : ∀ (v : Vec) (n : ℕ), v.length ≤ n →
    addV v (List.replicate n 0) = v := by
  intro v
  induction v with
  | nil => intro n _; rfl
  | cons a t ih =>
      intro n h
      cases n with
      | zero => simp at h
      | succ k =>
          show (a + 0) :: addV t (List.replicate k 0) = a :: t
          rw [add_zero, ih k (Nat.lt_succ_iff.mp (Nat.lt_of_lt_of_le (Nat.lt_succ_self _) h))]

/-- Adding a sufficiently large zero matrix is the identity. -/
theorem addM_zeros : ∀ (A : Mat) (n k : ℕ), A.length ≤ n →
    (∀ row ∈ A, row.length ≤ k) →
    addM A (List.replicate n (List.replicate k 0)) = A := by
  intro A
  induction A with
  | nil => intro n k _ _; rfl
  | cons r t ih =>
      intro n k hn hk
      cases n with
      | zero => simp at hn
      | succ j =>
          show addV r (List.replicate k 0) ::
            addM t (List.replicate j (List.replicate k 0)) = r :: t
          rw [addV_zeros r k (hk r (List.mem_cons_self r t)),
            ih j k (Nat.succ_le_succ_iff.mp hn)
              (fun row hrow => hk row (List.mem_cons_of_mem r hrow))]

/-- eyeM has n rows. -/
theorem eyeM_length (n : ℕ) : (eyeM n).length = n := by
  simp [eyeM]

/-- Every row of eyeM has n entries. -/
theorem eyeM_rows (n : ℕ) : ∀ row ∈ eyeM n, row.length = n := by
  intro row hrow
  rcases List.mem_map.mp hrow with ⟨i, _, hi⟩
  rw [← hi]
  simp

/-- Entrywise division of a positive-length vector by itself is all ones. -/
theorem zipWith_div_self : ∀ v : Vec, (∀ t ∈ v, t ≠ 0) →
    List.zipWith (fun a b => a / b) v v = List.replicate v.length 1 := by
  intro v
  induction v with
  | nil => intro _; rfl
  | cons a t ih =>
      intro h
      show a / a :: List.zipWith (fun a b => a / b) t t =
        1 :: List.replicate t.length 1
      rw [div_self (h a (List.mem_cons_self a t)),
        ih (fun u hu => h u (List.mem_cons_of_mem a hu))]

/-- Row-scaling by a sufficiently long vector of ones is the identity. -/
theorem rowScale_ones : ∀ (W : Mat) (n : ℕ), W.length ≤ n →
    rowScale (List.replicate n 1) W = W := by
  intro W
  induction W with
  | nil => intro n _; simp [rowScale]
  | cons r t ih =>
      intro n h
      cases n with
      | zero => simp at h
      | succ k =>
          show r.map (fun x => 1 * x) :: rowScale (List.replicate k 1) t = r :: t
          have h1 : r.map (fun x => (1:ℝ) * x) = r := by simp
          rw [h1, ih k (Nat.succ_le_succ_iff.mp h)]

/-- An entry of a map over List.range. -/
theorem getD_map_range (f : ℕ → ℝ) (n j : ℕ) (h : j < n) :
    ((List.range n).map f).getD j 0 = f j := by
  rw [List.getD_eq_getElem?_getD, List.getElem?_map, List.getElem?_range h]
  rfl

/-- Dot product against a unit coordinate vector extracts that coordinate. -/
theorem dotV_unit : ∀ (row : Vec) (j : ℕ),
    dotV row ((List.range row.length).map (fun k => if j = k then (1:ℝ) else 0)) =
      row.getD j 0 := by
  intro row
  induction row with
  | nil => intro j; rfl
  | cons a t ih =>
      intro j
      rw [show (a :: t).length = t.length + 1 from rfl,
        List.range_succ_eq_map, List.map_cons, List.map_map]
      cases j with
      | zero =>
          show a * (if (0:ℕ) = 0 then (1:ℝ) else 0) +
            dotV t ((List.range t.length).map
              (fun k => if 0 = Nat.succ k then (1:ℝ) else 0)) = a
          have h1 : (fun k => if 0 = Nat.succ k then (1:ℝ) else 0) =
              fun _ : ℕ => (0:ℝ) := by
            funext k
            simp
          rw [if_pos rfl, mul_one, h1, List.map_const']
          have h2 : ∀ (t : Vec) (n : ℕ), dotV t (List.replicate n 0) = 0 := by
            intro t
            induction t with
            | nil => intro n; rfl
            | cons b s ihs =>
                intro n
                cases n with
                | zero => rfl
                | succ m =>
                    show b * 0 + dotV s (List.replicate m 0) = 0
                    rw [mul_zero, ihs m, add_zero]
          rw [h2, add_zero]
      | succ i =>
          show a * (if Nat.succ i = 0 then (1:ℝ) else 0) +
            dotV t ((List.range t.length).map
              (fun k => if Nat.succ i = Nat.succ k then (1:ℝ) else 0)) =
            t.getD i 0
          have h1 : (fun k => if Nat.succ i = Nat.succ k then (1:ℝ) else 0) =
              (fun k => if i = k then (1:ℝ) else 0) := by
            funext k
            simp [Nat.succ_inj]
          rw [if_neg (Nat.succ_ne_zero i), mul_zero, h1, ih i, zero_add]

/-- A vector is recovered from its indexed entries. -/
theorem map_getD_range : ∀ row : Vec,
    (List.range row.length).map (fun i => row.getD i 0) = row := by
  intro row
  induction row with
  | nil => rfl
  | cons a t ih =>
      rw [show (a :: t).length = t.length + 1 from rfl,
        List.range_succ_eq_map, List.map_cons, List.map_map]
      show a :: (List.range t.length).map (fun i => t.getD i 0) = a :: t
      rw [ih]

/-- The identity matrix is its own transpose. -/
theorem transposeM_eyeM (n : ℕ) : transposeM (eyeM n) = eyeM n := by
  cases n with
  | zero => rfl
  | succ k =>
      unfold transposeM
      have hnc : numCols (eyeM (k+1)) = k + 1 := by
        simp [numCols, eyeM, List.range_succ_eq_map]
      rw [hnc]
      unfold eyeM
      apply List.map_congr_left
      intro j hj
      rw [List.map_map]
      apply List.map_congr_left
      intro i _
      show ((List.range (k+1)).map (fun l => if i = l then (1:ℝ) else 0)).getD j 0 =
        if j = i then (1:ℝ) else 0
      rw [getD_map_range _ _ _ (List.mem_range.mp hj)]
      simp [eq_comm]

/-- Multiplying on the right by the identity preserves a matrix whose rows
all have matching length. -/
theorem matMul_eyeM (W : Mat) (n : ℕ) (h : ∀ row ∈ W, row.length = n) :
    matMul W (eyeM n) = W := by
  unfold matMul
  rw [transposeM_eyeM]
  have hrow : ∀ row ∈ W, (eyeM n).map (fun col => dotV row col) = row := by
    intro row hrow
    unfold eyeM
    rw [List.map_map]
    have : ∀ j ∈ List.range n,
        ((fun col => dotV row col) ∘ fun i =>
          (List.range n).map (fun l => if i = l then (1:ℝ) else 0)) j =
        row.getD j 0 := by
      intro j _
      show dotV row ((List.range n).map (fun l => if j = l then (1:ℝ) else 0)) =
        row.getD j 0
      rw [← h row hrow]
      exact dotV_unit row j
    rw [List.map_congr_left this]
    rw [show n = row.length from (h row hrow).symm]
    exact map_getD_range row
  calc W.map (fun row => (eyeM n).map fun col => dotV row col)
      = W.map (fun row => row) := by
        apply List.map_congr_left
        intro row hr
        exact hrow row hr
    _ = W := List.map_id' W

/-- colScale preserves the number of rows. -/
theorem colScale_length (s : Vec) (A : Mat) :
    (colScale s A).length = A.length := by
  simp [colScale]

/-- colScale of a matrix with rows of the scaling length keeps that width. -/
theorem numCols_colScale (s : Vec) (U : Mat) (hne : U ≠ [])
    (h : ∀ row ∈ U, row.length = s.length) :
    numCols (colScale s U) = s.length := by
  cases U with
  | nil => exact absurd rfl hne
  | cons r t =>
      show (List.zipWith (fun c x => c * x) s r).length = s.length
      rw [List.length_zipWith, h r (List.mem_cons_self r t), Nat.min_self]

/-- Rows of colScale keep the scaling length when the base rows have it. -/
theorem colScale_rows (s : Vec) (U : Mat)
    (h : ∀ row ∈ U, row.length = s.length) :
    ∀ row ∈ colScale s U, row.length = s.length := by
  intro row hrow
  rcases List.mem_map.mp hrow with ⟨r, hr, hmap⟩
  rw [← hmap, List.length_zipWith, h r hr, Nat.min_self]

/-- C6: with gamma = 1 and q = 0, predict is the identity on the tracked
statistics: the spherical (non-steady-state) step returns mean, basis, scale
and precision unchanged (scale entries are non-negative by the data-model
invariant); the diagonal step returns mean, basis, scale and residual
unchanged (its residual entries are nonzero by the data-model invariant, and
the external routines satisfy their defining identities: pseudo-inverse and
Cholesky factor of the identity are the identity, and the SVD recovers the
already-orthogonal factorization U, Sigma). -/
theorem C6_predict_identity (pinv chol : Mat → Mat)
    (svd : Mat → Mat × Vec × Mat) (Vmat : Mat) (m0 m : Vec) (U : Mat)
    (Lambda Sigma Ups : Vec) (eta : ℝ) (ss : Bool)
    (hL : ∀ l ∈ Lambda, 0 ≤ l)
    (hrect : ∀ row ∈ U, row.length = Sigma.length)
    (hne : U ≠ [])
    (hUps : Ups.length = U.length)
    (hUpsnz : ∀ t ∈ Ups, t ≠ 0)
    (hpinv : pinv (eyeM Sigma.length) = eyeM Sigma.length)
    (hchol : chol (eyeM Sigma.length) = eyeM Sigma.length)
    (hsvd : svd (colScale Sigma U) = (U, Sigma, Vmat)) :
    lofi_spherical_cov_predict m0 m U Lambda 1 0 eta false =
      (m0, m, U, Lambda, eta) ∧
    lofi_diagonal_cov_predict pinv chol svd m U Sigma 1 0 Ups ss =
      (m, U, Sigma, Ups) := by
  constructor
  · have hmap : Lambda.map (fun l => Real.sqrt (((1:ℝ)^2 * l^2) /
        (((1:ℝ)^2 + 0*eta) * ((1:ℝ)^2 + 0*eta + 0*l^2)))) = Lambda := by
      calc Lambda.map (fun l => Real.sqrt (((1:ℝ)^2 * l^2) /
            (((1:ℝ)^2 + 0*eta) * ((1:ℝ)^2 + 0*eta + 0*l^2))))
          = Lambda.map (fun l => l) := by
            apply List.map_congr_left
            intro l hl
            rw [show ((1:ℝ)^2 * l^2) /
              (((1:ℝ)^2 + 0*eta) * ((1:ℝ)^2 + 0*eta + 0*l^2)) = l^2 by norm_num]
            exact Real.sqrt_sq (hL l hl)
        _ = Lambda := List.map_id' Lambda
    have heta : eta/((1:ℝ)^2 + 0*eta) = eta := by norm_num
    simp only [lofi_spherical_cov_predict, Bool.false_eq_true, if_false,
      smulV_one, hmap, heta]
  · have hA : Ups.map (fun t => 1/((1:ℝ)^2/t + 0)) = Ups := by
      calc Ups.map (fun t => 1/((1:ℝ)^2/t + 0))
          = Ups.map (fun t => t) := by
            apply List.map_congr_left
            intro t _
            rw [show (1:ℝ)^2/t + 0 = 1/t by norm_num]
            exact one_div_one_div t
        _ = Ups := List.map_id' Ups
    have hlen1 : (colScale Sigma U).length ≤ Ups.length := by
      rw [colScale_length, hUps]
    have hN : numCols (colScale Sigma U) = Sigma.length :=
      numCols_colScale Sigma U hne hrect
    have hadd : addM (eyeM Sigma.length)
        (List.replicate Sigma.length (List.replicate Sigma.length 0)) =
        eyeM Sigma.length :=
      addM_zeros (eyeM Sigma.length) Sigma.length Sigma.length
        (le_of_eq (eyeM_length Sigma.length))
        (fun row hr => le_of_eq (eyeM_rows Sigma.length row hr))
    have hmm : matMul (colScale Sigma U) (eyeM Sigma.length) = colScale Sigma U :=
      matMul_eyeM (colScale Sigma U) Sigma.length (colScale_rows Sigma U hrect)
    simp only [lofi_diagonal_cov_predict]
    rw [hA, zipWith_div_self Ups hUpsnz, smulV_one, smulV_one,
      rowScale_ones (colScale Sigma U) Ups.length hlen1,
      zero_matMul, transposeM_length, hN, hadd, hpinv, hchol, hmm, hsvd]

/-- C6 witness: the predict-identity instantiated at a concrete
one-parameter, rank-one belief. -/
theorem C6_witness :
    lofi_spherical_cov_predict [0] [0] [[1]] [0] 1 0 1 false =
      ([0], [0], [[1]], [0], 1) :=
  (C6_predict_identity idDummy idDummy svdConst [[1]] [0] [0] [[1]] [0] [1]
    [1] 1 false (by simp) (by simp) (by simp) rfl (by simp) rfl rfl rfl).1

/-- Membership in a zipWith comes from members of both lists. -/
theorem mem_zipWith {α β γ : Type} (f : α → β → γ) :
    ∀ (a : List α) (b : List β) (c : γ), c ∈ List.zipWith f a b →
      ∃ x ∈ a, ∃ y ∈ b, c = f x y := by
  intro a
  induction a with
  | nil => intro b c h; simp at h
  | cons x t ih =>
      intro b c h
      cases b with
      | nil => simp at h
      | cons y s =>
          rw [List.zipWith_cons_cons, List.mem_cons] at h
          cases h with
          | inl h =>
              exact ⟨x, List.mem_cons_self x t, y, List.mem_cons_self y s, h⟩
          | inr h =>
              rcases ih s c h with ⟨x2, hx2, y2, hy2, he⟩
              exact ⟨x2, List.mem_cons_of_mem x hx2, y2,
                List.mem_cons_of_mem y hy2, he⟩

/-- A nonempty rectangular matrix has its row width as column count. -/
theorem numCols_of_rect {M : Mat} {d r : ℕ} (h : isRect M d r)
    (hd : 0 < d) : numCols M = r := by
  cases M with
  | nil =>
      rw [← h.1] at hd
      simp at hd
  | cons row t => exact h.2 row (List.mem_cons_self row t)

/-- A square rectangular matrix has its size as column count. -/
theorem numCols_sq_rect {M : Mat} {n : ℕ} (h : isRect M n n) :
    numCols M = n := by
  cases n with
  | zero =>
      have : M = [] := List.length_eq_zero.mp h.1
      rw [this]
      rfl
  | succ k => exact numCols_of_rect h (Nat.succ_pos k)

/-- Mapping a function with controlled row lengths over a matrix gives a
rectangular matrix with the same number of rows. -/
theorem isRect_map {M : Mat} {d r r2 : ℕ} (f : Vec → Vec) (h : isRect M d r)
    (hf : ∀ row ∈ M, (f row).length = r2) : isRect (M.map f) d r2 := by
  refine ⟨by simp [h.1], ?_⟩
  intro row hrow
  rcases List.mem_map.mp hrow with ⟨x, hx, he⟩
  rw [← he]
  exact hf x hx

/-- The transpose of a nonempty d-by-r matrix is r-by-d. -/
theorem isRect_transposeM {M : Mat} {d r : ℕ} (h : isRect M d r)
    (hd : 0 < d) : isRect (transposeM M) r d := by
  constructor
  · rw [transposeM_length, numCols_of_rect h hd]
  · intro row hrow
    rcases List.mem_map.mp hrow with ⟨j, _, he⟩
    rw [← he, List.length_map, h.1]

/-- A matrix product has one row per left row, each as wide as the right
matrix. -/
theorem isRect_matMul {A B : Mat} {n k p : ℕ} (hA : isRect A n k)
    (hB : isRect B k p) (hk : 0 < k) : isRect (matMul A B) n p := by
  constructor
  · simp [matMul, hA.1]
  · intro row hrow
    rcases List.mem_map.mp hrow with ⟨r, _, he⟩
    rw [← he, List.length_map, transposeM_length, numCols_of_rect hB hk]

/-- The identity matrix is square. -/
theorem isRect_eyeM (n : ℕ) : isRect (eyeM n) n n :=
  ⟨eyeM_length n, eyeM_rows n⟩

/-- colScale of a d-by-r matrix by a length-r vector is d-by-r. -/
theorem isRect_colScale {U : Mat} {d : ℕ} (s : Vec)
    (h : isRect U d s.length) : isRect (colScale s U) d s.length := by
  refine isRect_map _ h ?_
  intro row hrow
  rw [List.length_zipWith, h.2 row hrow, Nat.min_self]

/-- hstack of two d-row matrices concatenates their widths. -/
theorem isRect_hstack {A B : Mat} {d r1 r2 : ℕ} (hA : isRect A d r1)
    (hB : isRect B d r2) : isRect (hstack A B) d (r1 + r2) := by
  constructor
  · simp [hstack, List.length_zipWith, hA.1, hB.1]
  · intro row hrow
    rcases mem_zipWith _ _ _ _ hrow with ⟨x, hx, y, hy, he⟩
    rw [he, List.length_append, hA.2 x hx, hB.2 y hy]

/-- Entrywise addition of two n-by-k matrices is n-by-k. -/
theorem isRect_addM {A B : Mat} {n k : ℕ} (hA : isRect A n k)
    (hB : isRect B n k) : isRect (addM A B) n k := by
  constructor
  · simp [addM, List.length_zipWith, hA.1, hB.1]
  · intro row hrow
    rcases mem_zipWith _ _ _ _ hrow with ⟨x, hx, y, hy, he⟩
    rw [he]
    show (List.zipWith _ x y).length = k
    rw [List.length_zipWith, hA.2 x hx, hB.2 y hy, Nat.min_self]

/-- Scalar multiplication preserves the shape. -/
theorem isRect_smulM {M : Mat} {d r : ℕ} (c : ℝ) (h : isRect M d r) :
    isRect (smulM c M) d r := by
  refine isRect_map _ h ?_
  intro row hrow
  show (row.map _).length = r
  rw [List.length_map, h.2 row hrow]

/-- Scalar division preserves the shape. -/
theorem isRect_divsM {M : Mat} {d r : ℕ} (c : ℝ) (h : isRect M d r) :
    isRect (divsM M c) d r := by
  refine isRect_map _ h ?_
  intro row hrow
  rw [List.length_map, h.2 row hrow]

/-- Taking the first r columns of a d-by-k matrix with r <= k is d-by-r. -/
theorem isRect_takeCols {M : Mat} {d k : ℕ} (r : ℕ) (h : isRect M d k)
    (hrk : r ≤ k) : isRect (takeCols r M) d r := by
  refine isRect_map _ h ?_
  intro row hrow
  rw [List.length_take, h.2 row hrow, Nat.min_eq_left hrk]

/-- Number of rows of a matrix product. -/
theorem matMul_length (A B : Mat) : (matMul A B).length = A.length := by
  simp [matMul]

/-- Length of an entrywise vector sum. -/
theorem addV_length (v w : Vec) : (addV v w).length = min v.length w.length := by
  simp [addV]

/-- Length of an entrywise vector difference. -/
theorem subV_length (v w : Vec) : (subV v w).length = min v.length w.length := by
  simp [subV]

/-- Length of a scalar-scaled vector. -/
theorem smulV_length (c : ℝ) (v : Vec) : (smulV c v).length = v.length := by
  simp [smulV]

/-- Length of a matrix-vector product. -/
theorem matVecM_length (M : Mat) (v : Vec) : (matVecM M v).length = M.length := by
  simp [matVecM]

/-- Number of rows of an entrywise matrix difference. -/
theorem subM_length (A B : Mat) : (subM A B).length = min A.length B.length := by
  simp [subM]

/-- Number of rows of a row-divided matrix. -/
theorem rowDiv_length (c : Vec) (A : Mat) :
    (rowDiv c A).length = min c.length A.length := by
  simp [rowDiv]

/-- Length of an extracted column. -/
theorem getCol_length (M : Mat) (j : ℕ) : (getCol M j).length = M.length := by
  simp [getCol]

/-- Normalization preserves the length. -/
theorem normalizeV_length (v : Vec) : (normalizeV v).length = v.length := by
  unfold normalizeV
  split
  · simp [divsV]
  · simp

/-- The zero matrix is rectangular. -/
theorem isRect_zerosM (n m : ℕ) : isRect (zerosM n m) n m := by
  constructor
  · simp [zerosM]
  · intro row hrow
    rcases List.mem_map.mp hrow with ⟨i, _, he⟩
    rw [← he, List.length_replicate]

/-- rowScale by a vector as long as the matrix preserves the shape. -/
theorem isRect_rowScale {W : Mat} {d r : ℕ} (c : Vec) (hc : c.length = d)
    (hW : isRect W d r) : isRect (rowScale c W) d r := by
  constructor
  · simp [rowScale, List.length_zipWith, hc, hW.1]
  · intro row hrow
    rcases mem_zipWith _ _ _ _ hrow with ⟨ci, _, x, hx, he⟩
    rw [he, List.length_map, hW.2 x hx]

/-- Shape of the whitening factor A = lstsq(chol R, I).T: it is C-by-C where
C is the emission dimension. -/
theorem whiten_shape (cholesky : Mat → Mat) (lstsqSolve : Mat → Mat → Mat)
    (y_cond_mean : Vec → Vec → Vec) (y_cond_cov : Vec → Vec → Mat)
    (m x : Vec) (adaptive_variance : Bool) (obs_noise_var : ℝ)
    (Hchol : ∀ M, (cholesky M).length = M.length ∧
      ∀ row ∈ cholesky M, row.length = numCols M)
    (Hlstsq : ∀ L B, (lstsqSolve L B).length = numCols L ∧
      ∀ row ∈ lstsqSolve L B, row.length = numCols B)
    (Hcov : ∀ w xx, isRect (y_cond_cov w xx) (y_cond_mean w xx).length
      (y_cond_mean w xx).length)
    (hC : 0 < (y_cond_mean m x).length) :
    isRect (transposeM (lstsqSolve
      (cholesky (if adaptive_variance then
        smulM obs_noise_var (eyeM (y_cond_mean m x).length)
       else y_cond_cov m x))
      (eyeM (cholesky (if adaptive_variance then
        smulM obs_noise_var (eyeM (y_cond_mean m x).length)
       else y_cond_cov m x)).length)))
      (y_cond_mean m x).length (y_cond_mean m x).length := by
  set C := (y_cond_mean m x).length with hCdef
  set R := (if adaptive_variance then smulM obs_noise_var (eyeM C)
    else y_cond_cov m x) with hRdef
  have hR : isRect R C C := by
    rw [hRdef]
    cases adaptive_variance
    · simpa using Hcov m x
    · simpa using isRect_smulM obs_noise_var (isRect_eyeM C)
  have hL : isRect (cholesky R) C C :=
    ⟨(Hchol R).1.trans hR.1,
     fun row hr => ((Hchol R).2 row hr).trans (numCols_sq_rect hR)⟩
  have hEye : isRect (eyeM (cholesky R).length) C C := by
    rw [hL.1]
    exact isRect_eyeM C
  have hLs : isRect (lstsqSolve (cholesky R) (eyeM (cholesky R).length)) C C :=
    ⟨(Hlstsq _ _).1.trans (numCols_sq_rect hL),
     fun row hr => ((Hlstsq _ _).2 row hr).trans (numCols_sq_rect hEye)⟩
  exact isRect_transposeM hLs hC

/-- Shape of the truncated SVD factors of the augmented matrix W_tilde built
by the condition-on steps: taking the first r columns / entries yields a
d-by-r basis and r scales, provided r <= d. -/
theorem condition_core_shape (jacrev2d : (Vec → Vec) → Vec → Mat)
    (cholesky : Mat → Mat) (lstsqSolve : Mat → Mat → Mat)
    (svd : Mat → Mat × Vec × Mat)
    (y_cond_mean : Vec → Vec → Vec) (y_cond_cov : Vec → Vec → Mat)
    (m x : Vec) (U : Mat) (Sigma : Vec) (adaptive_variance : Bool)
    (obs_noise_var : ℝ) {d r : ℕ}
    (Hsvd : ∀ W, (svd W).1.length = W.length ∧
      (∀ row ∈ (svd W).1, row.length = min W.length (numCols W)) ∧
      ((svd W).2.1).length = min W.length (numCols W))
    (Hchol : ∀ M, (cholesky M).length = M.length ∧
      ∀ row ∈ cholesky M, row.length = numCols M)
    (Hlstsq : ∀ L B, (lstsqSolve L B).length = numCols L ∧
      ∀ row ∈ lstsqSolve L B, row.length = numCols B)
    (Hjac : ∀ f v, (jacrev2d f v).length = (f v).length ∧
      ∀ row ∈ jacrev2d f v, row.length = v.length)
    (Hcov : ∀ w xx, isRect (y_cond_cov w xx) (y_cond_mean w xx).length
      (y_cond_mean w xx).length)
    (hU : isRect U d r) (hS : Sigma.length = r) (hm : m.length = d)
    (hd : 0 < d) (hr : r ≤ d) (hC : 0 < (y_cond_mean m x).length) :
    isRect (takeCols (numCols U) ((svd (hstack (colScale Sigma U)
      (matMul (transposeM (jacrev2d (fun w => y_cond_mean w x) m))
        (transposeM (lstsqSolve
          (cholesky (if adaptive_variance then
            smulM obs_noise_var (eyeM (y_cond_mean m x).length)
           else y_cond_cov m x))
          (eyeM (cholesky (if adaptive_variance then
            smulM obs_noise_var (eyeM (y_cond_mean m x).length)
           else y_cond_cov m x)).length)))))).1)) d r ∧
    (((svd (hstack (colScale Sigma U)
      (matMul (transposeM (jacrev2d (fun w => y_cond_mean w x) m))
        (transposeM (lstsqSolve
          (cholesky (if adaptive_variance then
            smulM obs_noise_var (eyeM (y_cond_mean m x).length)
           else y_cond_cov m x))
          (eyeM (cholesky (if adaptive_variance then
            smulM obs_noise_var (eyeM (y_cond_mean m x).length)
           else y_cond_cov m x)).length)))))).2.1).take (numCols U)).length
      = r := by
  have hA := whiten_shape cholesky lstsqSolve y_cond_mean y_cond_cov m x
    adaptive_variance obs_noise_var Hchol Hlstsq Hcov hC
  have hH : isRect (jacrev2d (fun w => y_cond_mean w x) m)
      (y_cond_mean m x).length d :=
    ⟨(Hjac (fun w => y_cond_mean w x) m).1,
     fun row hrow => ((Hjac (fun w => y_cond_mean w x) m).2 row hrow).trans hm⟩
  have hHT := isRect_transposeM hH hC
  have hHTA := isRect_matMul hHT hA hC
  have hU2 : isRect U d Sigma.length := by rw [hS]; exact hU
  have hW1 : isRect (colScale Sigma U) d r := by
    rw [← hS]
    exact isRect_colScale Sigma hU2
  have hWt := isRect_hstack hW1 hHTA
  set Wt := hstack (colScale Sigma U)
    (matMul (transposeM (jacrev2d (fun w => y_cond_mean w x) m))
      (transposeM (lstsqSolve
        (cholesky (if adaptive_variance then
          smulM obs_noise_var (eyeM (y_cond_mean m x).length)
         else y_cond_cov m x))
        (eyeM (cholesky (if adaptive_variance then
          smulM obs_noise_var (eyeM (y_cond_mean m x).length)
         else y_cond_cov m x)).length)))) with hWtdef
  have hu : isRect (svd Wt).1 d (min d (r + (y_cond_mean m x).length)) := by
    refine ⟨(Hsvd Wt).1.trans hWt.1, ?_⟩
    intro row hrow
    rw [(Hsvd Wt).2.1 row hrow, hWt.1, numCols_of_rect hWt hd]
  have hlamb : ((svd Wt).2.1).length = min d (r + (y_cond_mean m x).length) := by
    rw [(Hsvd Wt).2.2, hWt.1, numCols_of_rect hWt hd]
  have hrmin : r ≤ min d (r + (y_cond_mean m x).length) :=
    le_min hr (Nat.le_add_right r _)
  constructor
  · rw [numCols_of_rect hU hd]
    exact isRect_takeCols r hu hrmin
  · rw [numCols_of_rect hU hd, List.length_take, hlamb, Nat.min_eq_left hrmin]

/-- The spherical inflate keeps a d-by-r basis and r scales, under every
policy. -/
theorem shape_sph_inflate (pinv : Mat → Mat) (m0 m : Vec) (U : Mat)
    (Lambda : Vec) (eta alpha : ℝ) (p : Inflation) {d r : ℕ}
    (hU : isRect U d r) (hL : Lambda.length = r) :
    isRect (lofi_spherical_cov_inflate pinv m0 m U Lambda eta alpha p).2.1 d r ∧
    ((lofi_spherical_cov_inflate pinv m0 m U Lambda eta alpha p).2.2.1).length = r := by
  cases p <;> exact ⟨hU, by simpa [lofi_spherical_cov_inflate] using hL⟩

/-- The spherical predict keeps a d-by-r basis and r scales, in both steady
and non-steady modes. -/
theorem shape_sph_predict (m0 m : Vec) (U : Mat) (Lambda : Vec)
    (gamma q eta : ℝ) (ss : Bool) {d r : ℕ}
    (hU : isRect U d r) (hL : Lambda.length = r) :
    isRect (lofi_spherical_cov_predict m0 m U Lambda gamma q eta ss).2.2.1 d r ∧
    ((lofi_spherical_cov_predict m0 m U Lambda gamma q eta ss).2.2.2.1).length = r := by
  cases ss <;> exact ⟨hU, by simpa [lofi_spherical_cov_predict] using hL⟩

/-- The diagonal inflate keeps a d-by-r basis, r scales and a length-d
residual, under every policy, whenever the SVD routine has the library's
output shapes and r <= d. -/
theorem shape_diag_inflate (pinv : Mat → Mat) (svd : Mat → Mat × Vec × Mat)
    (m0 m : Vec) (U : Mat) (Sigma : Vec) (gamma q eta : ℝ) (Ups : Vec)
    (alpha : ℝ) (p : Inflation) {d r : ℕ}
    (Hsvd : ∀ W, (svd W).1.length = W.length ∧
      (∀ row ∈ (svd W).1, row.length = min W.length (numCols W)) ∧
      ((svd W).2.1).length = min W.length (numCols W))
    (hU : isRect U d r) (hS : Sigma.length = r) (hUps : Ups.length = d)
    (hm0 : m0.length = d) (hm : m.length = d) (hd : 0 < d) (hr : r ≤ d) :
    ((lofi_diagonal_cov_inflate pinv svd m0 m U Sigma gamma q eta Ups alpha p).1).length = d ∧
    isRect (lofi_diagonal_cov_inflate pinv svd m0 m U Sigma gamma q eta Ups alpha p).2.1 d r ∧
    ((lofi_diagonal_cov_inflate pinv svd m0 m U Sigma gamma q eta Ups alpha p).2.2.1).length = r ∧
    ((lofi_diagonal_cov_inflate pinv svd m0 m U Sigma gamma q eta Ups alpha p).2.2.2.1).length = d := by
  have hU2 : isRect U d Sigma.length := by rw [hS]; exact hU
  have hW : isRect (colScale Sigma U) d r := by
    rw [← hS]
    exact isRect_colScale Sigma hU2
  have hWp : isRect (divsM (colScale Sigma U) (Real.sqrt (1+alpha))) d r :=
    isRect_divsM _ hW
  have hmin : min d r = r := Nat.min_eq_right hr
  have hu : isRect (svd (divsM (colScale Sigma U) (Real.sqrt (1+alpha)))).1 d r := by
    refine ⟨(Hsvd _).1.trans hWp.1, ?_⟩
    intro row hrow
    rw [(Hsvd _).2.1 row hrow, hWp.1, numCols_of_rect hWp hd, hmin]
  have hs : ((svd (divsM (colScale Sigma U) (Real.sqrt (1+alpha)))).2.1).length = r := by
    rw [(Hsvd _).2.2, hWp.1, numCols_of_rect hWp hd, hmin]
  cases p with
  | bayesian =>
      refine ⟨?_, hu, hs, by simpa [lofi_diagonal_cov_inflate] using hUps⟩
      show (addV m (smulV _ _)).length = d
      rw [addV_length, smulV_length]
      have hKlen : (List.zipWith (fun ui ki => 1/ui * ki)
          (Ups.map (fun t => t/(1+alpha) + alpha*eta/(1+alpha)))
          (subV (subV m0 m) (matVecM
            (matMul (divsM (colScale Sigma U) (Real.sqrt (1+alpha)))
              (pinv (addM (eyeM (numCols (colScale Sigma U)))
                (matMul (transposeM (divsM (colScale Sigma U) (Real.sqrt (1+alpha))))
                  (rowDiv (Ups.map (fun t => t/(1+alpha) + alpha*eta/(1+alpha)))
                    (divsM (colScale Sigma U) (Real.sqrt (1+alpha))))))))
            (matVecM (transposeM (rowDiv
              (Ups.map (fun t => t/(1+alpha) + alpha*eta/(1+alpha)))
              (divsM (colScale Sigma U) (Real.sqrt (1+alpha))))) (subV m0 m))))).length = d := by
        rw [List.length_zipWith, List.length_map, hUps, subV_length, subV_length,
          matVecM_length, matMul_length]
        rw [show (divsM (colScale Sigma U) (Real.sqrt (1+alpha))).length = d from hWp.1]
        rw [hm0, hm]
        omega
      rw [hKlen, hm]
      omega
  | simple =>
      exact ⟨hm, hu, hs, by simpa [lofi_diagonal_cov_inflate] using hUps⟩
  | hybrid =>
      exact ⟨hm, hu, hs, by simpa [lofi_diagonal_cov_inflate] using hUps⟩

/-- The diagonal predict keeps a d-by-r basis, r scales and a length-d
residual, whenever the external routines have the library's output shapes,
0 < r and r <= d. -/
theorem shape_diag_predict (pinv cholesky : Mat → Mat)
    (svd : Mat → Mat × Vec × Mat) (m : Vec) (U : Mat) (Sigma : Vec)
    (gamma q : ℝ) (Ups : Vec) (ss : Bool) {d r : ℕ}
    (Hsvd : ∀ W, (svd W).1.length = W.length ∧
      (∀ row ∈ (svd W).1, row.length = min W.length (numCols W)) ∧
      ((svd W).2.1).length = min W.length (numCols W))
    (Hchol : ∀ M, (cholesky M).length = M.length ∧
      ∀ row ∈ cholesky M, row.length = numCols M)
    (Hpinv : ∀ M, (pinv M).length = numCols M ∧
      ∀ row ∈ pinv M, row.length = M.length)
    (hU : isRect U d r) (hS : Sigma.length = r) (hUps : Ups.length = d)
    (hm : m.length = d) (hd : 0 < d) (hr : r ≤ d) (hr0 : 0 < r) :
    ((lofi_diagonal_cov_predict pinv cholesky svd m U Sigma gamma q Ups ss).1).length = d ∧
    isRect (lofi_diagonal_cov_predict pinv cholesky svd m U Sigma gamma q Ups ss).2.1 d r ∧
    ((lofi_diagonal_cov_predict pinv cholesky svd m U Sigma gamma q Ups ss).2.2.1).length = r ∧
    ((lofi_diagonal_cov_predict pinv cholesky svd m U Sigma gamma q Ups ss).2.2.2).length = d := by
  have hU2 : isRect U d Sigma.length := by rw [hS]; exact hU
  have hW : isRect (colScale Sigma U) d r := by
    rw [← hS]
    exact isRect_colScale Sigma hU2
  have hratio : (List.zipWith (fun up t => up/t)
      (Ups.map (fun t => 1/(gamma^2/t + q))) Ups).length = d := by
    rw [List.length_zipWith, List.length_map, hUps, Nat.min_self]
  have hRS2 : isRect (rowScale (List.zipWith (fun up t => up/t)
      (Ups.map (fun t => 1/(gamma^2/t + q))) Ups) (colScale Sigma U)) d r :=
    isRect_rowScale _ hratio hW
  have hRS : isRect (rowScale (smulV gamma (List.zipWith (fun up t => up/t)
      (Ups.map (fun t => 1/(gamma^2/t + q))) Ups)) (colScale Sigma U)) d r :=
    isRect_rowScale _ (by rw [smulV_length, hratio]) hW
  have hTW := isRect_transposeM hW hd
  have hsm := isRect_smulM q hTW
  have hZ := isRect_matMul hsm hRS2 hd
  have hAdd : isRect (addM (eyeM (numCols (colScale Sigma U)))
      (matMul (smulM q (transposeM (colScale Sigma U)))
        (rowScale (List.zipWith (fun up t => up/t)
          (Ups.map (fun t => 1/(gamma^2/t + q))) Ups) (colScale Sigma U)))) r r := by
    rw [numCols_of_rect hW hd]
    exact isRect_addM (isRect_eyeM r) hZ
  have hpc : isRect (pinv (addM (eyeM (numCols (colScale Sigma U)))
      (matMul (smulM q (transposeM (colScale Sigma U)))
        (rowScale (List.zipWith (fun up t => up/t)
          (Ups.map (fun t => 1/(gamma^2/t + q))) Ups) (colScale Sigma U))))) r r :=
    ⟨(Hpinv _).1.trans (numCols_sq_rect hAdd),
     fun row hrow => ((Hpinv _).2 row hrow).trans hAdd.1⟩
  have hcc : isRect (cholesky (pinv (addM (eyeM (numCols (colScale Sigma U)))
      (matMul (smulM q (transposeM (colScale Sigma U)))
        (rowScale (List.zipWith (fun up t => up/t)
          (Ups.map (fun t => 1/(gamma^2/t + q))) Ups) (colScale Sigma U)))))) r r :=
    ⟨(Hchol _).1.trans hpc.1,
     fun row hrow => ((Hchol _).2 row hrow).trans (numCols_sq_rect hpc)⟩
  have hWp := isRect_matMul hRS hcc hr0
  have hmin : min d r = r := Nat.min_eq_right hr
  refine ⟨by simpa [lofi_diagonal_cov_predict, smulV_length] using hm, ?_, ?_,
    by simpa [lofi_diagonal_cov_predict] using hUps⟩
  · refine ⟨(Hsvd _).1.trans hWp.1, ?_⟩
    intro row hrow
    rw [(Hsvd _).2.1 row hrow, hWp.1, numCols_of_rect hWp hd, hmin]
  · rw [show (lofi_diagonal_cov_predict pinv cholesky svd m U Sigma gamma q Ups ss).2.2.1
      = (svd (matMul (rowScale (smulV gamma (List.zipWith (fun up t => up/t)
          (Ups.map (fun t => 1/(gamma^2/t + q))) Ups)) (colScale Sigma U))
        (cholesky (pinv (addM (eyeM (numCols (colScale Sigma U)))
          (matMul (smulM q (transposeM (colScale Sigma U)))
            (rowScale (List.zipWith (fun up t => up/t)
              (Ups.map (fun t => 1/(gamma^2/t + q))) Ups)
              (colScale Sigma U)))))))).2.1 from rfl]
    rw [(Hsvd _).2.2, hWp.1, numCols_of_rect hWp hd, hmin]

/-- Row squared norms of a column-scaled matrix: one entry per row. -/
theorem rowNormSq_colScale_length (s : Vec) (M : Mat) :
    (rowNormSq (colScale s M)).length = M.length := by
  simp [rowNormSq, colScale]

/-- Dropping columns does not change the number of rows. -/
theorem dropCols_length (r : ℕ) (M : Mat) :
    (dropCols r M).length = M.length := by
  simp [dropCols]

/-- The diagonal condition-on keeps a length-d mean, a d-by-r basis, r
scales and a length-d residual, whenever the external routines have the
library's output shapes and r <= d. -/
theorem shape_diag_condition (jacrev2d : (Vec → Vec) → Vec → Mat)
    (cholesky : Mat → Mat) (lstsqSolve : Mat → Mat → Mat)
    (svd : Mat → Mat × Vec × Mat) (pinv : Mat → Mat)
    (m : Vec) (U : Mat) (Sigma Ups : Vec)
    (y_cond_mean : Vec → Vec → Vec) (y_cond_cov : Vec → Vec → Mat)
    (x y : Vec) (sv_threshold : ℝ) (adaptive_variance : Bool)
    (obs_noise_var : ℝ) {d r : ℕ}
    (Hsvd : ∀ W, (svd W).1.length = W.length ∧
      (∀ row ∈ (svd W).1, row.length = min W.length (numCols W)) ∧
      ((svd W).2.1).length = min W.length (numCols W))
    (Hchol : ∀ M, (cholesky M).length = M.length ∧
      ∀ row ∈ cholesky M, row.length = numCols M)
    (Hlstsq : ∀ L B, (lstsqSolve L B).length = numCols L ∧
      ∀ row ∈ lstsqSolve L B, row.length = numCols B)
    (Hjac : ∀ f v, (jacrev2d f v).length = (f v).length ∧
      ∀ row ∈ jacrev2d f v, row.length = v.length)
    (Hcov : ∀ w xx, isRect (y_cond_cov w xx) (y_cond_mean w xx).length
      (y_cond_mean w xx).length)
    (hU : isRect U d r) (hS : Sigma.length = r) (hUps : Ups.length = d)
    (hm : m.length = d) (hd : 0 < d) (hr : r ≤ d)
    (hC : 0 < (y_cond_mean m x).length) :
    ((lofi_diagonal_cov_condition_on jacrev2d cholesky lstsqSolve svd pinv
      m U Sigma Ups y_cond_mean y_cond_cov x y sv_threshold adaptive_variance
      obs_noise_var).1).length = d ∧
    isRect (lofi_diagonal_cov_condition_on jacrev2d cholesky lstsqSolve svd
      pinv m U Sigma Ups y_cond_mean y_cond_cov x y sv_threshold
      adaptive_variance obs_noise_var).2.1 d r ∧
    ((lofi_diagonal_cov_condition_on jacrev2d cholesky lstsqSolve svd pinv
      m U Sigma Ups y_cond_mean y_cond_cov x y sv_threshold adaptive_variance
      obs_noise_var).2.2.1).length = r ∧
    ((lofi_diagonal_cov_condition_on jacrev2d cholesky lstsqSolve svd pinv
      m U Sigma Ups y_cond_mean y_cond_cov x y sv_threshold adaptive_variance
      obs_noise_var).2.2.2).length = d := by
  have hcore := condition_core_shape jacrev2d cholesky lstsqSolve svd
    y_cond_mean y_cond_cov m x U Sigma adaptive_variance obs_noise_var
    Hsvd Hchol Hlstsq Hjac Hcov hU hS hm hd hr hC
  have hA := whiten_shape cholesky lstsqSolve y_cond_mean y_cond_cov m x
    adaptive_variance obs_noise_var Hchol Hlstsq Hcov hC
  have hH : isRect (jacrev2d (fun w => y_cond_mean w x) m)
      (y_cond_mean m x).length d :=
    ⟨(Hjac (fun w => y_cond_mean w x) m).1,
     fun row hrow => ((Hjac (fun w => y_cond_mean w x) m).2 row hrow).trans hm⟩
  have hHT := isRect_transposeM hH hC
  have hHTA := isRect_matMul hHT hA hC
  have hU2 : isRect U d Sigma.length := by rw [hS]; exact hU
  have hW1 : isRect (colScale Sigma U) d r := by
    rw [← hS]
    exact isRect_colScale Sigma hU2
  have hWt := isRect_hstack hW1 hHTA
  have hulen : ((svd (hstack (colScale Sigma U)
      (matMul (transposeM (jacrev2d (fun w => y_cond_mean w x) m))
        (transposeM (lstsqSolve
          (cholesky (if adaptive_variance then
            smulM obs_noise_var (eyeM (y_cond_mean m x).length)
           else y_cond_cov m x))
          (eyeM (cholesky (if adaptive_variance then
            smulM obs_noise_var (eyeM (y_cond_mean m x).length)
           else y_cond_cov m x)).length)))))).1).length = d :=
    (Hsvd _).1.trans hWt.1
  refine ⟨?_, hcore.1, hcore.2, ?_⟩
  · show (addV m (matVecM _ _)).length = d
    rw [addV_length, matVecM_length, subM_length, rowDiv_length, hUps,
      matMul_length, matMul_length, matMul_length, matMul_length,
      rowDiv_length, hUps, transposeM_length]
    have h2 : numCols (jacrev2d (fun w => y_cond_mean w x) m) = d :=
      numCols_of_rect hH hC
    simp only [hm, h2, hWt.1]
    omega
  · show (addV Ups (rowNormSq (colScale _ (dropCols (numCols U) _)))).length = d
    rw [addV_length, hUps, rowNormSq_colScale_length, dropCols_length, hulen]
    omega

/-- The spherical condition-on keeps a d-by-r basis and r scales, whenever
the external routines have the library's output shapes and r <= d. -/
theorem shape_sph_condition (jacrev2d : (Vec → Vec) → Vec → Mat)
    (cholesky : Mat → Mat) (lstsqSolve : Mat → Mat → Mat)
    (svd : Mat → Mat × Vec × Mat)
    (m : Vec) (U : Mat) (Sigma : Vec) (eta : ℝ)
    (y_cond_mean : Vec → Vec → Vec) (y_cond_cov : Vec → Vec → Mat)
    (x y : Vec) (sv_threshold : ℝ) (adaptive_variance : Bool)
    (obs_noise_var : ℝ) {d r : ℕ}
    (Hsvd : ∀ W, (svd W).1.length = W.length ∧
      (∀ row ∈ (svd W).1, row.length = min W.length (numCols W)) ∧
      ((svd W).2.1).length = min W.length (numCols W))
    (Hchol : ∀ M, (cholesky M).length = M.length ∧
      ∀ row ∈ cholesky M, row.length = numCols M)
    (Hlstsq : ∀ L B, (lstsqSolve L B).length = numCols L ∧
      ∀ row ∈ lstsqSolve L B, row.length = numCols B)
    (Hjac : ∀ f v, (jacrev2d f v).length = (f v).length ∧
      ∀ row ∈ jacrev2d f v, row.length = v.length)
    (Hcov : ∀ w xx, isRect (y_cond_cov w xx) (y_cond_mean w xx).length
      (y_cond_mean w xx).length)
    (hU : isRect U d r) (hS : Sigma.length = r) (hm : m.length = d)
    (hd : 0 < d) (hr : r ≤ d) (hC : 0 < (y_cond_mean m x).length) :
    isRect (lofi_spherical_cov_condition_on jacrev2d cholesky lstsqSolve svd
      m U Sigma eta y_cond_mean y_cond_cov x y sv_threshold adaptive_variance
      obs_noise_var).2.1 d r ∧
    ((lofi_spherical_cov_condition_on jacrev2d cholesky lstsqSolve svd
      m U Sigma eta y_cond_mean y_cond_cov x y sv_threshold adaptive_variance
      obs_noise_var).2.2.1).length = r := by
  have hcore := condition_core_shape jacrev2d cholesky lstsqSolve svd
    y_cond_mean y_cond_cov m x U Sigma adaptive_variance obs_noise_var
    Hsvd Hchol Hlstsq Hjac Hcov hU hS hm hd hr hC
  exact ⟨hcore.1, hcore.2⟩

/-- Replacing a column with a length-d direction keeps a d-by-r matrix
rectangular. -/
theorem isRect_setCol {U : Mat} {d r : ℕ} (j : ℕ) (u : Vec)
    (hU : isRect U d r) (hu : u.length = d) : isRect (setCol U j u) d r := by
  constructor
  · simp [setCol, List.length_zipWith, hU.1, hu]
  · intro row hrow
    rcases mem_zipWith _ _ _ _ hrow with ⟨x, hx, y, _, he⟩
    rw [he, List.length_set, hU.2 x hx]

/-- One step of the lofi orthogonal sweep keeps a d-by-r basis and r
scales, provided the candidate matrix has d-wide columns. -/
theorem orth_step_shape (H A : Mat) {d r : ℕ} (hH : numCols H = d)
    (carry : Mat × Vec) (i : ℕ) (hU : isRect carry.1 d r)
    (hL : carry.2.length = r) :
    isRect (lofi_orth_update_basis H A carry i).1 d r ∧
    (lofi_orth_update_basis H A carry i).2.length = r := by
  obtain ⟨U, L⟩ := carry
  have hu : (normalizeV (getCol (matMul (subM (transposeM H)
      (matMul U (matMul (transposeM U) (transposeM H)))) A) i)).length = d := by
    rw [normalizeV_length, getCol_length, matMul_length, subM_length,
      transposeM_length, hH, matMul_length, hU.1, Nat.min_self]
  constructor
  · show isRect (if _ then setCol U (argminV L) _ else U) d r
    split
    · exact isRect_setCol _ _ hU hu
    · exact hU
  · show (if _ then L.set (argminV L) _ else L).length = r
    split
    · rw [List.length_set]
      exact hL
    · exact hL

/-- A fold preserves any property each step preserves. -/
theorem foldl_pres {α γ : Type} (P : α → Prop) (f : α → γ → α)
    (h : ∀ a c, P a → P (f a c)) :
    ∀ (l : List γ) (x : α), P x → P (l.foldl f x) := by
  intro l
  induction l with
  | nil => intro x hx; exact hx
  | cons c t ih =>
      intro x hx
      rw [List.foldl_cons]
      exact ih (f x c) (h x c hx)

/-- The orthogonal condition-on keeps a d-by-r basis and r scales. -/
theorem shape_orth_condition (jacrev2d : (Vec → Vec) → Vec → Mat)
    (cholesky : Mat → Mat) (lstsqSolve : Mat → Mat → Mat)
    (matInv : Mat → Mat) (m : Vec) (U : Mat) (Lambda : Vec) (eta : ℝ)
    (y_cond_mean : Vec → Vec → Vec) (y_cond_cov : Vec → Vec → Mat)
    (x y : Vec) (adaptive_variance : Bool) (obs_noise_var : ℝ)
    (perm : List ℕ) {d r : ℕ}
    (Hjac : ∀ f v, (jacrev2d f v).length = (f v).length ∧
      ∀ row ∈ jacrev2d f v, row.length = v.length)
    (hU : isRect U d r) (hL : Lambda.length = r) (hm : m.length = d)
    (hC : 0 < (y_cond_mean m x).length) :
    isRect (lofi_orth_condition_on jacrev2d cholesky lstsqSolve matInv
      m U Lambda eta y_cond_mean y_cond_cov x y adaptive_variance
      obs_noise_var perm).2.1 d r ∧
    ((lofi_orth_condition_on jacrev2d cholesky lstsqSolve matInv
      m U Lambda eta y_cond_mean y_cond_cov x y adaptive_variance
      obs_noise_var perm).2.2).length = r := by
  have hH : isRect (jacrev2d (fun w => y_cond_mean w x) m)
      (y_cond_mean m x).length d :=
    ⟨(Hjac (fun w => y_cond_mean w x) m).1,
     fun row hrow => ((Hjac (fun w => y_cond_mean w x) m).2 row hrow).trans hm⟩
  have hHnc : numCols (jacrev2d (fun w => y_cond_mean w x) m) = d :=
    numCols_of_rect hH hC
  have hfold := foldl_pres
    (fun c : Mat × Vec => isRect c.1 d r ∧ c.2.length = r)
    (lofi_orth_update_basis (jacrev2d (fun w => y_cond_mean w x) m)
      (transposeM (lstsqSolve
        (cholesky (if adaptive_variance then
          smulM obs_noise_var (eyeM (y_cond_mean m x).length)
         else y_cond_cov m x))
        (eyeM (y_cond_mean m x).length))))
    (fun a c hP => orth_step_shape _ _ hHnc a c hP.1 hP.2)
    perm (U, Lambda) ⟨hU, hL⟩
  exact ⟨hfold.1, hfold.2⟩

/-- One composed diagonal timestep (inflate, predict, condition) preserves
the shape invariant of the belief. -/
theorem shape_diag_step (jacrev2d : (Vec → Vec) → Vec → Mat)
    (cholesky : Mat → Mat) (lstsqSolve : Mat → Mat → Mat)
    (svd : Mat → Mat × Vec × Mat) (pinv : Mat → Mat)
    (y_cond_mean : Vec → Vec → Vec) (y_cond_cov : Vec → Vec → Mat)
    (m0 : Vec) (eta alpha gamma q sv_threshold obs_noise_var : ℝ)
    (inflation : Inflation) (ss adaptive_variance : Bool) {d r : ℕ}
    (Hsvd : ∀ W, (svd W).1.length = W.length ∧
      (∀ row ∈ (svd W).1, row.length = min W.length (numCols W)) ∧
      ((svd W).2.1).length = min W.length (numCols W))
    (Hchol : ∀ M, (cholesky M).length = M.length ∧
      ∀ row ∈ cholesky M, row.length = numCols M)
    (Hlstsq : ∀ L B, (lstsqSolve L B).length = numCols L ∧
      ∀ row ∈ lstsqSolve L B, row.length = numCols B)
    (Hpinv : ∀ M, (pinv M).length = numCols M ∧
      ∀ row ∈ pinv M, row.length = M.length)
    (Hjac : ∀ f v, (jacrev2d f v).length = (f v).length ∧
      ∀ row ∈ jacrev2d f v, row.length = v.length)
    (Hcov : ∀ w xx, isRect (y_cond_cov w xx) (y_cond_mean w xx).length
      (y_cond_mean w xx).length)
    (hm0 : m0.length = d) (hd : 0 < d) (hr : r ≤ d) (hr0 : 0 < r)
    (hCall : ∀ w xx, 0 < (y_cond_mean w xx).length)
    (b : Vec × Mat × Vec × Vec) (xy : Vec × Vec)
    (hP : b.1.length = d ∧ isRect b.2.1 d r ∧ b.2.2.1.length = r ∧
      b.2.2.2.length = d) :
    (lofi_diagonal_step jacrev2d cholesky lstsqSolve svd pinv y_cond_mean
      y_cond_cov m0 eta alpha gamma q sv_threshold obs_noise_var inflation
      ss adaptive_variance b xy).1.length = d ∧
    isRect (lofi_diagonal_step jacrev2d cholesky lstsqSolve svd pinv
      y_cond_mean y_cond_cov m0 eta alpha gamma q sv_threshold obs_noise_var
      inflation ss adaptive_variance b xy).2.1 d r ∧
    (lofi_diagonal_step jacrev2d cholesky lstsqSolve svd pinv y_cond_mean
      y_cond_cov m0 eta alpha gamma q sv_threshold obs_noise_var inflation
      ss adaptive_variance b xy).2.2.1.length = r ∧
    (lofi_diagonal_step jacrev2d cholesky lstsqSolve svd pinv y_cond_mean
      y_cond_cov m0 eta alpha gamma q sv_threshold obs_noise_var inflation
      ss adaptive_variance b xy).2.2.2.length = d := by
  obtain ⟨hbm, hbU, hbS, hbUps⟩ := hP
  have hinfl := shape_diag_inflate pinv svd m0 b.1 b.2.1 b.2.2.1 gamma q eta
    b.2.2.2 alpha inflation Hsvd hbU hbS hbUps hm0 hbm hd hr
  have hpred := shape_diag_predict pinv cholesky svd
    (lofi_diagonal_cov_inflate pinv svd m0 b.1 b.2.1 b.2.2.1 gamma q eta
      b.2.2.2 alpha inflation).1
    (lofi_diagonal_cov_inflate pinv svd m0 b.1 b.2.1 b.2.2.1 gamma q eta
      b.2.2.2 alpha inflation).2.1
    (lofi_diagonal_cov_inflate pinv svd m0 b.1 b.2.1 b.2.2.1 gamma q eta
      b.2.2.2 alpha inflation).2.2.1
    gamma q
    (lofi_diagonal_cov_inflate pinv svd m0 b.1 b.2.1 b.2.2.1 gamma q eta
      b.2.2.2 alpha inflation).2.2.2.1
    ss Hsvd Hchol Hpinv hinfl.2.1 hinfl.2.2.1 hinfl.2.2.2 hinfl.1 hd hr hr0
  have hcond := shape_diag_condition jacrev2d cholesky lstsqSolve svd pinv
    (lofi_diagonal_cov_predict pinv cholesky svd
      (lofi_diagonal_cov_inflate pinv svd m0 b.1 b.2.1 b.2.2.1 gamma q eta
        b.2.2.2 alpha inflation).1
      (lofi_diagonal_cov_inflate pinv svd m0 b.1 b.2.1 b.2.2.1 gamma q eta
        b.2.2.2 alpha inflation).2.1
      (lofi_diagonal_cov_inflate pinv svd m0 b.1 b.2.1 b.2.2.1 gamma q eta
        b.2.2.2 alpha inflation).2.2.1
      gamma q
      (lofi_diagonal_cov_inflate pinv svd m0 b.1 b.2.1 b.2.2.1 gamma q eta
        b.2.2.2 alpha inflation).2.2.2.1 ss).1
    (lofi_diagonal_cov_predict pinv cholesky svd
      (lofi_diagonal_cov_inflate pinv svd m0 b.1 b.2.1 b.2.2.1 gamma q eta
        b.2.2.2 alpha inflation).1
      (lofi_diagonal_cov_inflate pinv svd m0 b.1 b.2.1 b.2.2.1 gamma q eta
        b.2.2.2 alpha inflation).2.1
      (lofi_diagonal_cov_inflate pinv svd m0 b.1 b.2.1 b.2.2.1 gamma q eta
        b.2.2.2 alpha inflation).2.2.1
      gamma q
      (lofi_diagonal_cov_inflate pinv svd m0 b.1 b.2.1 b.2.2.1 gamma q eta
        b.2.2.2 alpha inflation).2.2.2.1 ss).2.1
    (lofi_diagonal_cov_predict pinv cholesky svd
      (lofi_diagonal_cov_inflate pinv svd m0 b.1 b.2.1 b.2.2.1 gamma q eta
        b.2.2.2 alpha inflation).1
      (lofi_diagonal_cov_inflate pinv svd m0 b.1 b.2.1 b.2.2.1 gamma q eta
        b.2.2.2 alpha inflation).2.1
      (lofi_diagonal_cov_inflate pinv svd m0 b.1 b.2.1 b.2.2.1 gamma q eta
        b.2.2.2 alpha inflation).2.2.1
      gamma q
      (lofi_diagonal_cov_inflate pinv svd m0 b.1 b.2.1 b.2.2.1 gamma q eta
        b.2.2.2 alpha inflation).2.2.2.1 ss).2.2.1
    (lofi_diagonal_cov_predict pinv cholesky svd
      (lofi_diagonal_cov_inflate pinv svd m0 b.1 b.2.1 b.2.2.1 gamma q eta
        b.2.2.2 alpha inflation).1
      (lofi_diagonal_cov_inflate pinv svd m0 b.1 b.2.1 b.2.2.1 gamma q eta
        b.2.2.2 alpha inflation).2.1
      (lofi_diagonal_cov_inflate pinv svd m0 b.1 b.2.1 b.2.2.1 gamma q eta
        b.2.2.2 alpha inflation).2.2.1
      gamma q
      (lofi_diagonal_cov_inflate pinv svd m0 b.1 b.2.1 b.2.2.1 gamma q eta
        b.2.2.2 alpha inflation).2.2.2.1 ss).2.2.2
    y_cond_mean y_cond_cov xy.1 xy.2 sv_threshold adaptive_variance
    obs_noise_var Hsvd Hchol Hlstsq Hjac Hcov hpred.2.1 hpred.2.2.1
    hpred.2.2.2 hpred.1 hd hr (hCall _ xy.1)
  exact ⟨hcond.1, hcond.2.1, hcond.2.2.1, hcond.2.2.2⟩

/-- C7: rank invariance: if the input belief has a d-by-r basis and r scale
entries (with 1 <= r <= d, a positive emission dimension, and external
routines with the library's output shapes), then inflate, predict and
condition-on return a d-by-r basis and r scale entries in every variant
(spherical, diagonal, orthogonal), and the invariant holds at every step of
a scan of composed diagonal timesteps. -/
theorem C7_rank_invariant (jacrev2d : (Vec → Vec) → Vec → Mat)
    (cholesky : Mat → Mat) (lstsqSolve : Mat → Mat → Mat)
    (svd : Mat → Mat × Vec × Mat) (pinv matInv : Mat → Mat)
    (y_cond_mean : Vec → Vec → Vec) (y_cond_cov : Vec → Vec → Mat)
    (m0 m x y : Vec) (U : Mat) (Sigma Lambda Ups : Vec)
    (eta alpha gamma q sv_threshold obs_noise_var : ℝ)
    (inflation : Inflation) (ss adaptive_variance : Bool) (perm : List ℕ)
    {d r : ℕ}
    (Hsvd : ∀ W, (svd W).1.length = W.length ∧
      (∀ row ∈ (svd W).1, row.length = min W.length (numCols W)) ∧
      ((svd W).2.1).length = min W.length (numCols W))
    (Hchol : ∀ M, (cholesky M).length = M.length ∧
      ∀ row ∈ cholesky M, row.length = numCols M)
    (Hlstsq : ∀ L B, (lstsqSolve L B).length = numCols L ∧
      ∀ row ∈ lstsqSolve L B, row.length = numCols B)
    (Hpinv : ∀ M, (pinv M).length = numCols M ∧
      ∀ row ∈ pinv M, row.length = M.length)
    (Hjac : ∀ f v, (jacrev2d f v).length = (f v).length ∧
      ∀ row ∈ jacrev2d f v, row.length = v.length)
    (Hcov : ∀ w xx, isRect (y_cond_cov w xx) (y_cond_mean w xx).length
      (y_cond_mean w xx).length)
    (hU : isRect U d r) (hS : Sigma.length = r) (hL : Lambda.length = r)
    (hUps : Ups.length = d) (hm : m.length = d) (hm0 : m0.length = d)
    (hd : 0 < d) (hr : r ≤ d) (hr0 : 0 < r)
    (hCall : ∀ w xx, 0 < (y_cond_mean w xx).length) :
    (isRect (lofi_spherical_cov_inflate pinv m0 m U Lambda eta alpha
        inflation).2.1 d r ∧
      ((lofi_spherical_cov_inflate pinv m0 m U Lambda eta alpha
        inflation).2.2.1).length = r) ∧
    (isRect (lofi_spherical_cov_predict m0 m U Lambda gamma q eta ss).2.2.1
        d r ∧
      ((lofi_spherical_cov_predict m0 m U Lambda gamma q eta
        ss).2.2.2.1).length = r) ∧
    (isRect (lofi_spherical_cov_condition_on jacrev2d cholesky lstsqSolve svd
        m U Sigma eta y_cond_mean y_cond_cov x y sv_threshold
        adaptive_variance obs_noise_var).2.1 d r ∧
      ((lofi_spherical_cov_condition_on jacrev2d cholesky lstsqSolve svd
        m U Sigma eta y_cond_mean y_cond_cov x y sv_threshold
        adaptive_variance obs_noise_var).2.2.1).length = r) ∧
    (isRect (lofi_diagonal_cov_inflate pinv svd m0 m U Sigma gamma q eta Ups
        alpha inflation).2.1 d r ∧
      ((lofi_diagonal_cov_inflate pinv svd m0 m U Sigma gamma q eta Ups
        alpha inflation).2.2.1).length = r) ∧
    (isRect (lofi_diagonal_cov_predict pinv cholesky svd m U Sigma gamma q
        Ups ss).2.1 d r ∧
      ((lofi_diagonal_cov_predict pinv cholesky svd m U Sigma gamma q
        Ups ss).2.2.1).length = r) ∧
    (isRect (lofi_diagonal_cov_condition_on jacrev2d cholesky lstsqSolve svd
        pinv m U Sigma Ups y_cond_mean y_cond_cov x y sv_threshold
        adaptive_variance obs_noise_var).2.1 d r ∧
      ((lofi_diagonal_cov_condition_on jacrev2d cholesky lstsqSolve svd pinv
        m U Sigma Ups y_cond_mean y_cond_cov x y sv_threshold
        adaptive_variance obs_noise_var).2.2.1).length = r) ∧
    (isRect (lofi_orth_condition_on jacrev2d cholesky lstsqSolve matInv
        m U Lambda eta y_cond_mean y_cond_cov x y adaptive_variance
        obs_noise_var perm).2.1 d r ∧
      ((lofi_orth_condition_on jacrev2d cholesky lstsqSolve matInv
        m U Lambda eta y_cond_mean y_cond_cov x y adaptive_variance
        obs_noise_var perm).2.2).length = r) ∧
    (∀ l : List (Vec × Vec),
      isRect (l.foldl (lofi_diagonal_step jacrev2d cholesky lstsqSolve svd
        pinv y_cond_mean y_cond_cov m0 eta alpha gamma q sv_threshold
        obs_noise_var inflation ss adaptive_variance)
        (m, U, Sigma, Ups)).2.1 d r ∧
      ((l.foldl (lofi_diagonal_step jacrev2d cholesky lstsqSolve svd pinv
        y_cond_mean y_cond_cov m0 eta alpha gamma q sv_threshold
        obs_noise_var inflation ss adaptive_variance)
        (m, U, Sigma, Ups)).2.2.1).length = r) := by
  refine ⟨shape_sph_inflate pinv m0 m U Lambda eta alpha inflation hU hL,
    shape_sph_predict m0 m U Lambda gamma q eta ss hU hL,
    shape_sph_condition jacrev2d cholesky lstsqSolve svd m U Sigma eta
      y_cond_mean y_cond_cov x y sv_threshold adaptive_variance obs_noise_var
      Hsvd Hchol Hlstsq Hjac Hcov hU hS hm hd hr (hCall m x),
    ?_, ?_, ?_,
    shape_orth_condition jacrev2d cholesky lstsqSolve matInv m U Lambda eta
      y_cond_mean y_cond_cov x y adaptive_variance obs_noise_var perm Hjac
      hU hL hm (hCall m x), ?_⟩
  · have h := shape_diag_inflate pinv svd m0 m U Sigma gamma q eta Ups alpha
      inflation Hsvd hU hS hUps hm0 hm hd hr
    exact ⟨h.2.1, h.2.2.1⟩
  · have h := shape_diag_predict pinv cholesky svd m U Sigma gamma q Ups ss
      Hsvd Hchol Hpinv hU hS hUps hm hd hr hr0
    exact ⟨h.2.1, h.2.2.1⟩
  · have h := shape_diag_condition jacrev2d cholesky lstsqSolve svd pinv
      m U Sigma Ups y_cond_mean y_cond_cov x y sv_threshold adaptive_variance
      obs_noise_var Hsvd Hchol Hlstsq Hjac Hcov hU hS hUps hm hd hr (hCall m x)
    exact ⟨h.2.1, h.2.2.1⟩
  · intro l
    have hfold := foldl_pres
      (fun b : Vec × Mat × Vec × Vec => b.1.length = d ∧ isRect b.2.1 d r ∧
        b.2.2.1.length = r ∧ b.2.2.2.length = d)
      (lofi_diagonal_step jacrev2d cholesky lstsqSolve svd pinv y_cond_mean
        y_cond_cov m0 eta alpha gamma q sv_threshold obs_noise_var inflation
        ss adaptive_variance)
      (fun b xy hP => shape_diag_step jacrev2d cholesky lstsqSolve svd pinv
        y_cond_mean y_cond_cov m0 eta alpha gamma q sv_threshold
        obs_noise_var inflation ss adaptive_variance Hsvd Hchol Hlstsq Hpinv
        Hjac Hcov hm0 hd hr hr0 hCall b xy hP)
      l (m, U, Sigma, Ups) ⟨hm, hU, hS, hUps⟩
    exact ⟨hfold.2.1, hfold.2.2.1⟩

/-- svdDummy has the SVD output shapes. -/
theorem svdDummy_contract : ∀ W, (svdDummy W).1.length = W.length ∧
    (∀ row ∈ (svdDummy W).1, row.length = min W.length (numCols W)) ∧
    ((svdDummy W).2.1).length = min W.length (numCols W) :=
  fun W => ⟨(isRect_zerosM _ _).1, (isRect_zerosM _ _).2, by simp [svdDummy]⟩

/-- cholDummy has the Cholesky output shapes. -/
theorem cholDummy_contract : ∀ M, (cholDummy M).length = M.length ∧
    ∀ row ∈ cholDummy M, row.length = numCols M :=
  fun M => ⟨(isRect_zerosM _ _).1, (isRect_zerosM _ _).2⟩

/-- lstsqDummy has the least-squares output shapes. -/
theorem lstsqDummy_contract : ∀ L B, (lstsqDummy L B).length = numCols L ∧
    ∀ row ∈ lstsqDummy L B, row.length = numCols B :=
  fun L B => ⟨(isRect_zerosM _ _).1, (isRect_zerosM _ _).2⟩

/-- pinvDummy has the pseudo-inverse output shapes. -/
theorem pinvDummy_contract : ∀ M, (pinvDummy M).length = numCols M ∧
    ∀ row ∈ pinvDummy M, row.length = M.length :=
  fun M => ⟨(isRect_zerosM _ _).1, (isRect_zerosM _ _).2⟩

/-- jacDummy has the jacobian output shapes. -/
theorem jacDummy_contract : ∀ (f : Vec → Vec) (v : Vec),
    (jacDummy f v).length = (f v).length ∧
    ∀ row ∈ jacDummy f v, row.length = v.length := by
  intro f v
  constructor
  · simp [jacDummy]
  · intro row hrow
    rcases List.mem_map.mp hrow with ⟨i, _, he⟩
    rw [← he, List.length_replicate]

/-- covDummy is square of emisDummy's emission dimension. -/
theorem covDummy_contract : ∀ w xx, isRect (covDummy w xx)
    (emisDummy w xx).length (emisDummy w xx).length :=
  fun _ _ => ⟨rfl, by simp [covDummy, emisDummy]⟩

/-- C7 witness: the rank invariant instantiated at a concrete d = r = 1
belief with shape-correct stand-in routines: the diagonal condition-on
returns a 1-by-1 basis and one scale entry. -/
theorem C7_witness :
    isRect (lofi_diagonal_cov_condition_on jacDummy cholDummy lstsqDummy
      svdDummy pinvDummy [0] [[0]] [0] [0] emisDummy covDummy [0] [0] 0 true
      1).2.1 1 1 ∧
    ((lofi_diagonal_cov_condition_on jacDummy cholDummy lstsqDummy svdDummy
      pinvDummy [0] [[0]] [0] [0] emisDummy covDummy [0] [0] 0 true
      1).2.2.1).length = 1 :=
  (C7_rank_invariant jacDummy cholDummy lstsqDummy svdDummy pinvDummy
    matInvDummy emisDummy covDummy [0] [0] [0] [0] [[0]] [0] [0] [0]
    1 0 1 0 0 1 .bayesian false true []
    svdDummy_contract cholDummy_contract lstsqDummy_contract
    pinvDummy_contract jacDummy_contract covDummy_contract
    ⟨rfl, by simp⟩ rfl rfl rfl rfl rfl Nat.one_pos (le_refl 1) Nat.one_pos
    (fun _ _ => Nat.one_pos)).2.2.2.2.2.1
